import Mathlib

/-
Verification of the plugin discovery / dependency-ordering / lifecycle engine
of the uptime-cli-plugin repository (src/src/plugin_loader.py), as a shallow
embedding in Lean 4.

Python exceptions are modelled with `Except`; the `PluginError` messages of
the source are modelled as a structured error type carrying exactly the data
interpolated into each message.  Plugin callbacks (`on_start`, `on_tools_load`,
`load`) are opaque effects, modelled by boolean "raises" flags on the record,
and the phase drivers return explicit traces of which callbacks were invoked
and which raised.
-/

namespace UptimePlugin

abbrev Key := String × String

/-- Modelled from the spec: the `RequiredPlugin` value type lives in
`src/required_plugin.py`, which is not part of the provided sources.  Spec §3:
attributes `module : string` (empty string means "same module as the declaring
plugin") and the target plugin's local name; derived key `(module, plugin)`. -/
structure RequiredPlugin where
  module : String
  name : String
deriving DecidableEq

/-- Modelled from the spec: derived key `(module, plugin)` used for graph
lookups. -/
def RequiredPlugin.key (r : RequiredPlugin) : Key := (r.module, r.name)

/-- Modelled from the spec: the textual identity of a requirement, used when a
`PluginError` names a missing requirement. -/
def RequiredPlugin.str (r : RequiredPlugin) : String := r.module ++ "." ++ r.name

/-- Result of calling `get_required_plugins()` on the wrapped plugin instance:
either a well-typed list of `RequiredPlugin` values, or something else, in
which case `full_class_name` of the actual value is observed
(`is_list_of(..., RequiredPlugin)` fails). -/
inductive ReqResult where
  | ok (reqs : List RequiredPlugin)
  | illTyped (typeName : String)
deriving DecidableEq

/-- The `_Plugin` record of plugin_loader.py: identity `(module_name, name)`
plus the behaviour of the wrapped `CliPlugin` instance that the loader can
observe: its `get_required_plugins()` answer, whether it is a `ToolsPlugin`,
and whether each lifecycle callback raises when invoked. -/
structure Plugin where
  module_name : String
  name : String
  reqResult : ReqResult
  isTools : Bool
  toolsLoadFails : Bool
  onStartFails : Bool
  loadFails : Bool
deriving DecidableEq

/-- `_Plugin.key`: `(self.module_name, self.name)`. -/
def Plugin.key (p : Plugin) : Key := (p.module_name, p.name)

/-- `_Plugin.__str__`: `f"{self.module_name}.{self.name}"`. -/
def Plugin.str (p : Plugin) : String := p.module_name ++ "." ++ p.name

/-- `_Plugin.requirements`: recreates each declared requirement with
`module=p.module or self.module_name` (the empty string is falsy in Python, so
an empty module is replaced by the declaring plugin's module).  Only consulted
after the type check succeeded, so the ill-typed case is never reached by
`get_ordered_plugins`. -/
def Plugin.requirements (p : Plugin) : List RequiredPlugin :=
  match p.reqResult with
  | .ok reqs =>
      reqs.map (fun r =>
        ⟨if r.module = "" then p.module_name else r.module, r.name⟩)
  | .illTyped _ => []

/-- The three `PluginError` raise sites of the ordering pipeline, carrying the
data interpolated into each message: the type-mismatch error of
`check_required_plugin_types`, the missing-requirement error of
`_check_for_non_existing_requirements`, and the cycle error of
`_get_sorted_plugins` (whose payload is the list of local names of the
still-unplaced records). -/
inductive PluginError where
  | badTypes (plugin : String) (typeName : String)
  | nonExisting (plugin : String) (requirement : String)
  | cyclic (names : List String)
deriving DecidableEq

/-- `_Plugin.check_required_plugin_types`: raises `PluginError` naming the
plugin (`str(self)`) and the actual type observed when
`get_required_plugins()` is not a list of `RequiredPlugin`. -/
def Plugin.check_required_plugin_types (p : Plugin) : Except PluginError Unit :=
  match p.reqResult with
  | .ok _ => .ok ()
  | .illTyped t => .error (.badTypes p.str t)

/-- The `_PluginGraph._plugins` dict: an insertion-ordered mapping from key to
record (Python 3.7+ dict semantics). -/
structure PluginGraph where
  plugins : List (Key × Plugin)
deriving DecidableEq

def PluginGraph.empty : PluginGraph := ⟨[]⟩

/-- Python dict assignment `d[k] = v`: replaces in place when the key is
present (keeping its position), appends otherwise. -/
def dictInsert (d : List (Key × Plugin)) (k : Key) (v : Plugin) :
    List (Key × Plugin) :=
  if d.any (fun kv => kv.1 = k) then
    d.map (fun kv => if kv.1 = k then (k, v) else kv)
  else d ++ [(k, v)]

/-- `_PluginGraph.add`: `self._plugins[plugin.key] = plugin`. -/
def PluginGraph.add (g : PluginGraph) (p : Plugin) : PluginGraph :=
  ⟨dictInsert g.plugins p.key p⟩

/-- `_PluginGraph.add_all`. -/
def PluginGraph.add_all (g : PluginGraph) (ps : List Plugin) : PluginGraph :=
  ps.foldl PluginGraph.add g

def PluginGraph.keys (g : PluginGraph) : List Key :=
  g.plugins.map (fun kv => kv.1)

def PluginGraph.values (g : PluginGraph) : List Plugin :=
  g.plugins.map (fun kv => kv.2)

/-- `_PluginGraph._check_required_plugin_types`: checks each record in dict
iteration order; the first failure aborts the whole operation. -/
def checkTypesList : List Plugin → Except PluginError Unit
  | [] => .ok ()
  | p :: rest =>
    match p.check_required_plugin_types with
    | .ok _ => checkTypesList rest
    | .error e => .error e

def PluginGraph.check_required_plugin_types (g : PluginGraph) :
    Except PluginError Unit :=
  checkTypesList g.values

/-- The generator of `_check_for_non_existing_requirements`: all
`(plugin, requirement)` pairs, iterating records in mapping order and each
record's requirements in declaration order. -/
def PluginGraph.reqPairs (g : PluginGraph) : List (Plugin × RequiredPlugin) :=
  g.values.flatMap (fun p => p.requirements.map (fun r => (p, r)))

/-- `_PluginGraph._check_for_non_existing_requirements`: `iterators.first` of
the pairs whose requirement key is not in the mapping; when one exists, raise
`PluginError` naming the requiring plugin and the missing requirement. -/
def PluginGraph.check_for_non_existing_requirements (g : PluginGraph) :
    Except PluginError Unit :=
  match g.reqPairs.find? (fun pr => decide (pr.2.key ∉ g.keys)) with
  | none => .ok ()
  | some pr => .error (.nonExisting pr.1.str pr.2.str)

/-- State of the repeated-pass loop of `_get_sorted_plugins`:
`ordered_plugins`, `ordered_set` (kept as a list of keys in placement order),
and the per-pass `appended` flag. -/
structure SortState where
  ordered : List Plugin
  placedKeys : List Key
  appended : Bool
deriving DecidableEq

/-- The inner check of `_get_sorted_plugins`: no `unresolved_dependencies`,
i.e. every requirement key is already in `ordered_set`. -/
def allReqsPlaced (p : Plugin) (placed : List Key) : Bool :=
  p.requirements.all (fun r => decide (r.key ∈ placed))

/-- One iteration of the inner `for key, plugin in self._plugins.items()`
loop body. -/
def placePlugin (s : SortState) (kv : Key × Plugin) : SortState :=
  if kv.1 ∈ s.placedKeys then s
  else if allReqsPlaced kv.2 s.placedKeys then
    ⟨s.ordered ++ [kv.2], s.placedKeys ++ [kv.1], true⟩
  else s

/-- The inner `for` loop over the mapping's items. -/
def runPass : List (Key × Plugin) → SortState → SortState
  | [], s => s
  | kv :: rest, s => runPass rest (placePlugin s kv)

/-- One full pass of the `while True` loop: reset `appended = False`, then run
the inner loop. -/
def onePass (items : List (Key × Plugin)) (s : SortState) : SortState :=
  runPass items ⟨s.ordered, s.placedKeys, false⟩

/-- The `cycle` list built when a pass places nothing while records remain:
the records whose key is not in `ordered_set`, in mapping order. -/
def unplacedPlugins (items : List (Key × Plugin)) (placed : List Key) :
    List Plugin :=
  (items.filter (fun kv => decide (kv.1 ∉ placed))).map (fun kv => kv.2)

/-- The cycle `PluginError`: payload `[plugin.key[1] for plugin in cycle]`,
the local names of all still-unplaced records. -/
def cycleError (items : List (Key × Plugin)) (placed : List Key) :
    PluginError :=
  .cyclic ((unplacedPlugins items placed).map (fun p => p.name))

/-- The `while True` loop of `_get_sorted_plugins`, with explicit fuel.  The
Python loop terminates because every pass either appends at least one record
or exits; `items.length + 1` passes therefore always suffice, and the fuel-0
branch repeats the cycle error (it is unreachable at that fuel, see
`sortLoop_always_3`). -/
def sortLoop (items : List (Key × Plugin)) :
    Nat → SortState → Except PluginError (List Plugin)
  | 0, s => .error (cycleError items s.placedKeys)
  | fuel + 1, s =>
    let t := onePass items s
    if t.appended then sortLoop items fuel t
    else if t.ordered.length ≠ items.length then
      .error (cycleError items t.placedKeys)
    else .ok t.ordered

/-- `_PluginGraph._get_sorted_plugins`. -/
def PluginGraph.get_sorted_plugins (g : PluginGraph) :
    Except PluginError (List Plugin) :=
  sortLoop g.plugins (g.plugins.length + 1) ⟨[], [], false⟩

/-- `_PluginGraph.get_ordered_plugins`: type check, then missing-requirement
check, then the sort. -/
def PluginGraph.get_ordered_plugins (g : PluginGraph) :
    Except PluginError (List Plugin) := do
  g.check_required_plugin_types
  g.check_for_non_existing_requirements
  g.get_sorted_plugins

/-- `PluginLoader`: holds `self._plugins` in construction order. -/
structure PluginLoader where
  plugins : List Plugin
deriving DecidableEq

/-- `PluginLoader.get_ordered_plugins`: builds a fresh graph from
`self._plugins` and orders it. -/
def PluginLoader.get_ordered_plugins (l : PluginLoader) :
    Except PluginError (List Plugin) :=
  (PluginGraph.empty.add_all l.plugins).get_ordered_plugins

/-- The `try: ordered_plugins = self.get_ordered_plugins() except: ... =
self._plugins` fallback used by `on_tools_load` and `load`. -/
def PluginLoader.orderedOrFallback (l : PluginLoader) : List Plugin :=
  match l.get_ordered_plugins with
  | .ok ps => ps
  | .error _ => l.plugins

/-- Trace of one phase: which callbacks were invoked, in order, and which of
them raised (each raise is caught and logged by the driver). -/
structure PhaseTrace where
  invoked : List Plugin
  raised : List Plugin
deriving DecidableEq

/-- The loop of `PluginLoader.on_start`: every record's `on_start` is invoked;
a raise is caught, logged via `notify_plugin_exception`, and the loop
continues. -/
def runStart : List Plugin → PhaseTrace → PhaseTrace
  | [], t => t
  | p :: rest, t =>
      runStart rest
        ⟨t.invoked ++ [p], if p.onStartFails then t.raised ++ [p] else t.raised⟩

/-- `PluginLoader.on_start`: iterates `self._plugins` (construction order; no
dependency ordering is computed in this phase driver). -/
def PluginLoader.on_start (l : PluginLoader) : PhaseTrace :=
  runStart l.plugins ⟨[], []⟩

/-- Result of `PluginLoader.load`: the returned command-surface accumulator
(modelled as the list of registrations made into it) plus the invocation
trace. -/
structure LoadOutcome where
  cli : List String
  trace : PhaseTrace
deriving DecidableEq

/-- The loop of `PluginLoader.load`: every record's `load` is invoked with the
accumulator; a raise is caught and logged, and the loop continues.  A
successful `load` registers into the accumulator (modelled as appending the
plugin's identity). -/
def runLoad : List Plugin → LoadOutcome → LoadOutcome
  | [], o => o
  | p :: rest, o =>
      if p.loadFails then
        runLoad rest ⟨o.cli, ⟨o.trace.invoked ++ [p], o.trace.raised ++ [p]⟩⟩
      else
        runLoad rest ⟨o.cli ++ [p.str], ⟨o.trace.invoked ++ [p], o.trace.raised⟩⟩

/-- `PluginLoader.load`: dependency order with fallback to construction order,
then the per-record loop; always returns the accumulator. -/
def PluginLoader.load (l : PluginLoader) (cli0 : List String) : LoadOutcome :=
  runLoad l.orderedOrFallback ⟨cli0, ⟨[], []⟩⟩

/-- Result of `PluginLoader.on_tools_load`: the boolean phase result, the
tools callbacks invoked (in order) and those that raised. -/
structure ToolsOutcome where
  result : Bool
  invoked : List Plugin
  raised : List Plugin
deriving DecidableEq

/-- The loop of `PluginLoader.on_tools_load`: skip records that are not
`ToolsPlugin`s; invoke `on_tools_load` on each tools record; on a raise set
`result = False`, and if the failing record's local name is `"tools_mode"`
return immediately (skipping all remaining records), otherwise log and
continue. -/
def runTools : List Plugin → ToolsOutcome → ToolsOutcome
  | [], o => o
  | p :: rest, o =>
      if p.isTools then
        if p.toolsLoadFails then
          if p.name = "tools_mode" then
            ⟨false, o.invoked ++ [p], o.raised ++ [p]⟩
          else
            runTools rest ⟨false, o.invoked ++ [p], o.raised ++ [p]⟩
        else
          runTools rest ⟨o.result, o.invoked ++ [p], o.raised⟩
      else
        runTools rest o

/-- `PluginLoader.on_tools_load`: dependency order with fallback to
construction order, then the tools loop starting from `result = True`. -/
def PluginLoader.on_tools_load (l : PluginLoader) : ToolsOutcome :=
  runTools l.orderedOrFallback ⟨true, [], []⟩

/-- Observable outcome of `_Plugin.create_from_entry_point` on one entry
point: a record was built; the loaded file defined no plugin class (`None`);
the import raised `ModuleNotFoundError`; or some other exception was raised
during loading or construction. -/
inductive EPOutcome where
  | built (p : Plugin)
  | nothing
  | moduleNotFound (msg : String)
  | failed (msg : String)
deriving DecidableEq

/-- An entry point: its textual identity (`str(entry_point)`, used in error
reports) and what happens when the factory processes it. -/
structure EntryPoint where
  name : String
  outcome : EPOutcome
deriving DecidableEq

/-- Result of `PluginLoader._create_plugins`: the record list and the entry
points for which `notify_plugin_exception` was called (one report per failing
entry point, naming it). -/
structure CreateResult where
  plugin_list : List Plugin
  reported : List String
deriving DecidableEq

/-- The loop of `PluginLoader._create_plugins`: append each built record;
skip entry points that define no plugin; on `ModuleNotFoundError` report
unless `ignore_missing`; on any other exception report; always continue with
the next entry point. -/
def runCreate (ignore_missing : Bool) :
    List EntryPoint → CreateResult → CreateResult
  | [], acc => acc
  | ep :: rest, acc =>
      match ep.outcome with
      | .built p =>
          runCreate ignore_missing rest ⟨acc.plugin_list ++ [p], acc.reported⟩
      | .nothing => runCreate ignore_missing rest acc
      | .moduleNotFound _ =>
          if ignore_missing then runCreate ignore_missing rest acc
          else runCreate ignore_missing rest
            ⟨acc.plugin_list, acc.reported ++ [ep.name]⟩
      | .failed _ =>
          runCreate ignore_missing rest
            ⟨acc.plugin_list, acc.reported ++ [ep.name]⟩

/-- `PluginLoader._create_plugins`. -/
def create_plugins (ignore_missing : Bool) (eps : List EntryPoint) :
    CreateResult :=
  runCreate ignore_missing eps ⟨[], []⟩

/-- The requirement edge relation of a graph's mapping: `reqEdgeL items k q`
holds when the record stored at key `k` declares a requirement whose resolved
key is `q`. -/
def reqEdgeL (items : List (Key × Plugin)) (k q : Key) : Prop :=
  ∃ kv ∈ items, kv.1 = k ∧ ∃ r ∈ kv.2.requirements, r.key = q

/-- A record with no declared requirements. -/
def noRequirements (p : Plugin) : Bool := p.requirements.isEmpty

/-- The output invariant of the sort: each record's requirements all have keys
appearing earlier in the sequence. -/
inductive SortedOut : List Plugin → Prop
  | nil : SortedOut []
  | snoc {l : List Plugin} {p : Plugin} : SortedOut l →
      (∀ r ∈ p.requirements, r.key ∈ l.map Plugin.key) → SortedOut (l ++ [p])

/-- Well-formedness of a graph mapping, true of every graph the loader builds:
every stored key is the record's own key, and keys are distinct. -/
def GraphWF (g : PluginGraph) : Prop :=
  (∀ kv ∈ g.plugins, kv.1 = kv.2.key) ∧
    (g.plugins.map (fun kv => kv.1)).Nodup

/-- A convenience constructor for concrete test records. -/
def mkPlugin (m n : String) (reqs : List RequiredPlugin) : Plugin :=
  ⟨m, n, .ok reqs, false, false, false, false⟩

/-- Whether `get_required_plugins()` returned a well-typed list. -/
def ReqResult.isOk : ReqResult → Bool
  | .ok _ => true
  | .illTyped _ => false

/-- The record (if any) that one entry point contributes to the factory's
output. -/
def EPOutcome.builtPlugin : EPOutcome → Option Plugin
  | .built p => some p
  | .nothing => none
  | .moduleNotFound _ => none
  | .failed _ => none

/-- The report (if any) that `_create_plugins` emits for one entry point:
other exceptions are always reported; `ModuleNotFoundError` is reported
unless `ignore_missing`. -/
def reportedName (ignore_missing : Bool) (ep : EntryPoint) : Option String :=
  match ep.outcome with
  | .built _ => none
  | .nothing => none
  | .moduleNotFound _ => if ignore_missing then none else some ep.name
  | .failed _ => some ep.name

/-- Concrete sample records used by witnesses and counterexamples. -/
def sampleA : Plugin := mkPlugin "m" "a" []

def sampleB : Plugin := mkPlugin "m" "b" [⟨"m", "a"⟩]

def cycA : Plugin := mkPlugin "m" "a" [⟨"m", "b"⟩]

def cycB : Plugin := mkPlugin "m" "b" [⟨"m", "a"⟩]

def toolsOk1 : Plugin := ⟨"m", "t1", .ok [], true, false, false, false⟩

def toolsModeBad : Plugin := ⟨"m", "tools_mode", .ok [], true, true, false, false⟩

def toolsOk3 : Plugin := ⟨"m", "t3", .ok [], true, false, false, false⟩

def toolsOtherBad : Plugin := ⟨"m", "other", .ok [], true, true, false, false⟩

def illT : Plugin := ⟨"m", "t", .illTyped "builtins.str", false, false, false, false⟩

def epGood1 : EntryPoint := ⟨"ep1", .built sampleA⟩

def epBad2 : EntryPoint := ⟨"ep2", .failed "boom"⟩

def epGood3 : EntryPoint := ⟨"ep3", .built (mkPlugin "m" "c" [])⟩

/-- Invariant of the repeated-pass loop: `ordered_set` is exactly the keys of
`ordered_plugins`, every ordered record is one of the mapping's entries, no
key is placed twice, and the output-so-far satisfies the precedence
invariant. -/
structure SortInv (items : List (Key × Plugin)) (s : SortState) : Prop where
  placed_eq : s.placedKeys = s.ordered.map Plugin.key
  mem_items : ∀ p ∈ s.ordered, (p.key, p) ∈ items
  nodup : s.placedKeys.Nodup
  sorted : SortedOut s.ordered

/-- For a stuck state of the loop, picks for an unplaced key some requirement
key of its record that is itself unplaced (used to build a cycle). -/
def stuckNext (items : List (Key × Plugin)) (placed : List Key) (k : Key) :
    Key :=
  match items.find? (fun kv => kv.1 = k) with
  | some kv =>
      match kv.2.requirements.find? (fun r => decide (r.key ∉ placed)) with
      | some r => r.key
      | none => k
  | none => k

instance (g : PluginGraph) : Decidable (GraphWF g) := by
  unfold GraphWF; exact inferInstance

instance (items : List (Key × Plugin)) (k q : Key) :
    Decidable (reqEdgeL items k q) := by
  unfold reqEdgeL; exact inferInstance

instance : DecidableEq (Except PluginError (List Plugin)) := fun a b =>
  match a, b with
  | .ok x, .ok y => decidable_of_iff (x = y) (by simp)
  | .error x, .error y => decidable_of_iff (x = y) (by simp)
  | .ok _, .error _ => .isFalse (by simp)
  | .error _, .ok _ => .isFalse (by simp)

/-- Closed form of the `on_start` loop: every record is invoked, in order, and
exactly the records whose callback raises are logged. -/
theorem runStart_eq (ps : List Plugin) : ∀ t : PhaseTrace, runStart ps t =
    ⟨t.invoked ++ ps, t.raised ++ ps.filter (fun p => p.onStartFails)⟩ := by
  induction ps with
  | nil => intro t; simp [runStart]
  | cons p rest ih =>
      intro t
      by_cases h : p.onStartFails <;>
        simp [runStart, ih, h, List.filter_cons]

/-- Closed form of the `load` loop. -/
theorem runLoad_eq (ps : List Plugin) : ∀ o : LoadOutcome, runLoad ps o =
    ⟨o.cli ++ (ps.filter (fun p => !p.loadFails)).map Plugin.str,
      ⟨o.trace.invoked ++ ps, o.trace.raised ++ ps.filter (fun p => p.loadFails)⟩⟩ := by
  induction ps with
  | nil => intro o; simp [runLoad]
  | cons p rest ih =>
      intro o
      by_cases h : p.loadFails <;>
        simp [runLoad, ih, h, List.filter_cons]

/-- Closed form of the `_create_plugins` loop. -/
theorem runCreate_eq (im : Bool) (eps : List EntryPoint) :
    ∀ acc : CreateResult, runCreate im eps acc =
      ⟨acc.plugin_list ++ eps.filterMap (fun ep => ep.outcome.builtPlugin),
        acc.reported ++ eps.filterMap (reportedName im)⟩ := by
  induction eps with
  | nil => intro acc; simp [runCreate]
  | cons ep rest ih =>
      intro acc
      obtain ⟨nm, outc⟩ := ep
      cases outc with
      | built p => simp [runCreate, ih, List.filterMap_cons,
          EPOutcome.builtPlugin, reportedName]
      | nothing => simp [runCreate, ih, List.filterMap_cons,
          EPOutcome.builtPlugin, reportedName]
      | moduleNotFound m =>
          cases im <;>
            simp [runCreate, ih, List.filterMap_cons,
              EPOutcome.builtPlugin, reportedName]
      | failed m => simp [runCreate, ih, List.filterMap_cons,
          EPOutcome.builtPlugin, reportedName]

/-- C2 (amended): the `onStart` phase driver does not compute the dependency
order; it iterates the constructed records in construction order, invokes
every record's `on_start` callback in that order, and logs exactly the
callbacks that raise. -/
theorem claim_C2_amended (l : PluginLoader) :
    l.on_start.invoked = l.plugins ∧
    l.on_start.raised = l.plugins.filter (fun p => p.onStartFails) := by
  unfold PluginLoader.on_start
  rw [runStart_eq]
  simp

/-- C2 counterexample: a loader whose construction order is `[b, a]` where `b`
requires `a`.  The dependency order is computed successfully as `[a, b]`, yet
`on_start` invokes the callbacks in the order `[b, a]`, so the claim that
`onStart` invokes following the dependency order is false at this input. -/
theorem claim_C2_counterexample :
    (⟨[sampleB, sampleA]⟩ : PluginLoader).get_ordered_plugins =
      .ok [sampleA, sampleB] ∧
    (⟨[sampleB, sampleA]⟩ : PluginLoader).on_start.invoked =
      [sampleB, sampleA] ∧
    ([sampleB, sampleA] : List Plugin) ≠ [sampleA, sampleB] := by decide

/-- C7: no per-plugin failure escapes the `onStart` or `load` phase drivers:
both are total, every record of the phase is invoked even when arbitrary
callbacks raise, each raise is converted to a logged diagnostic, and `load`
returns the command-surface accumulator. -/
theorem claim_C7 (l : PluginLoader) (cli0 : List String) :
    (l.on_start.invoked = l.plugins ∧
      l.on_start.raised = l.plugins.filter (fun p => p.onStartFails)) ∧
    ((l.load cli0).trace.invoked = l.orderedOrFallback ∧
      (l.load cli0).trace.raised =
        l.orderedOrFallback.filter (fun p => p.loadFails) ∧
      (l.load cli0).cli =
        cli0 ++ (l.orderedOrFallback.filter (fun p => !p.loadFails)).map
          Plugin.str) := by
  refine ⟨?_, ?_⟩
  · unfold PluginLoader.on_start
    rw [runStart_eq]
    simp
  · unfold PluginLoader.load
    rw [runLoad_eq]
    simp

/-- C8: the factory isolates per-entry-point construction failures: the batch
operation is total, every successfully loading entry point still contributes
its record, each failing entry point is reported exactly once, naming it; in
particular with three entry points whose second throws, exactly the first and
third records are produced and the single report names the second. -/
theorem claim_C8 (im : Bool) (eps : List EntryPoint) :
    (create_plugins im eps).plugin_list =
      eps.filterMap (fun ep => ep.outcome.builtPlugin) ∧
    (create_plugins im eps).reported = eps.filterMap (reportedName im) ∧
    (∀ (e1 e2 e3 : EntryPoint) (p1 p3 : Plugin) (msg : String),
      e1.outcome = .built p1 → e3.outcome = .built p3 →
      e2.outcome = .failed msg →
      create_plugins im [e1, e2, e3] = ⟨[p1, p3], [e2.name]⟩) := by
  refine ⟨?_, ?_, ?_⟩
  · unfold create_plugins; rw [runCreate_eq]; simp
  · unfold create_plugins; rw [runCreate_eq]; simp
  · intro e1 e2 e3 p1 p3 msg h1 h3 h2
    unfold create_plugins
    rw [runCreate_eq]
    simp [List.filterMap_cons, h1, h2, h3, EPOutcome.builtPlugin, reportedName]

/-- C8 witness: the three-entry-point scenario at concrete inputs. -/
theorem claim_C8_witness :
    epGood1.outcome = .built sampleA ∧
    epGood3.outcome = .built (mkPlugin "m" "c" []) ∧
    epBad2.outcome = .failed "boom" ∧
    create_plugins false [epGood1, epBad2, epGood3] =
      ⟨[sampleA, mkPlugin "m" "c" []], [epBad2.name]⟩ :=
  ⟨by decide, by decide, by decide,
    (claim_C8 false []).2.2 epGood1 epBad2 epGood3 sampleA
      (mkPlugin "m" "c" []) "boom" (by decide) (by decide) (by decide)⟩

/-- Characterization of the `on_tools_load` loop relative to an arbitrary
accumulator: the invoked callbacks are an initial segment of the tools-capable
records, the raised ones are those whose callback fails, the boolean result
conjoins the accumulator's flag with the absence of failures among the
invoked, the segment either covers all tools records or ends at a failing
record named `tools_mode`, and no failing `tools_mode` record occurs before
the segment's last element. -/
theorem runTools_char (ps : List Plugin) : ∀ o : ToolsOutcome, ∃ m,
    m ≤ (ps.filter (fun p => p.isTools)).length ∧
    (runTools ps o).invoked =
      o.invoked ++ (ps.filter (fun p => p.isTools)).take m ∧
    (runTools ps o).raised =
      o.raised ++ ((ps.filter (fun p => p.isTools)).take m).filter
        (fun p => p.toolsLoadFails) ∧
    (runTools ps o).result =
      (o.result && ((ps.filter (fun p => p.isTools)).take m).all
        (fun p => !p.toolsLoadFails)) ∧
    (m = (ps.filter (fun p => p.isTools)).length ∨
      ∃ q, q.toolsLoadFails = true ∧ q.name = "tools_mode" ∧
        (ps.filter (fun p => p.isTools)).take m =
          (ps.filter (fun p => p.isTools)).take (m - 1) ++ [q]) ∧
    (∀ q ∈ (ps.filter (fun p => p.isTools)).take (m - 1),
      ¬(q.toolsLoadFails = true ∧ q.name = "tools_mode")) := by
  induction ps with
  | nil => intro o; exact ⟨0, by simp [runTools]⟩
  | cons p rest ih =>
      intro o
      by_cases hT : p.isTools
      · by_cases hF : p.toolsLoadFails
        · by_cases hN : p.name = "tools_mode"
          · refine ⟨1, ?_, ?_, ?_, ?_, ?_, ?_⟩ <;>
              simp [runTools, hT, hF, hN, List.filter_cons]
          · obtain ⟨m, hle, hinv, hra, hres, hstop, hpre⟩ :=
              ih ⟨false, o.invoked ++ [p], o.raised ++ [p]⟩
            refine ⟨m + 1, ?_, ?_, ?_, ?_, ?_, ?_⟩
            · simp only [List.filter_cons, hT, if_pos, List.length_cons]
              omega
            · simpa [runTools, hT, hF, hN, List.filter_cons] using hinv
            · simpa [runTools, hT, hF, hN, List.filter_cons] using hra
            · simp [runTools, hT, hF, hN, List.filter_cons]
              simpa [hF] using hres
            · rcases hstop with h | ⟨q, hq1, hq2, hq3⟩
              · left; simp [List.filter_cons, hT, h]
              · right
                refine ⟨q, hq1, hq2, ?_⟩
                have hm : 1 ≤ m := by
                  rcases Nat.eq_zero_or_pos m with h0 | h1
                  · rw [h0] at hq3; simp at hq3
                  · exact h1
                obtain ⟨k, rfl⟩ : ∃ k, m = k + 1 :=
                  ⟨m - 1, by omega⟩
                simp only [List.filter_cons, hT, if_pos, List.take_succ_cons,
                  Nat.add_sub_cancel] at hq3 ⊢
                simp [hq3]
            · intro q hq
              simp only [List.filter_cons, hT, if_pos, Nat.add_sub_cancel] at hq
              rcases Nat.eq_zero_or_pos m with h0 | h1
              · rw [h0] at hq; simp at hq
              · obtain ⟨k, rfl⟩ : ∃ k, m = k + 1 := ⟨m - 1, by omega⟩
                simp only [List.take_succ_cons] at hq
                rcases List.mem_cons.1 hq with rfl | hq'
                · intro hcon; exact hN hcon.2
                · exact hpre q (by simpa using hq')
        · obtain ⟨m, hle, hinv, hra, hres, hstop, hpre⟩ :=
            ih ⟨o.result, o.invoked ++ [p], o.raised⟩
          refine ⟨m + 1, ?_, ?_, ?_, ?_, ?_, ?_⟩
          · simp only [List.filter_cons, hT, if_pos, List.length_cons]
            omega
          · simpa [runTools, hT, hF, List.filter_cons] using hinv
          · simpa [runTools, hT, hF, List.filter_cons] using hra
          · simp [runTools, hT, hF, List.filter_cons]
            simpa [hF] using hres
          · rcases hstop with h | ⟨q, hq1, hq2, hq3⟩
            · left; simp [List.filter_cons, hT, h]
            · right
              refine ⟨q, hq1, hq2, ?_⟩
              have hm : 1 ≤ m := by
                rcases Nat.eq_zero_or_pos m with h0 | h1
                · rw [h0] at hq3; simp at hq3
                · exact h1
              obtain ⟨k, rfl⟩ : ∃ k, m = k + 1 := ⟨m - 1, by omega⟩
              simp only [List.filter_cons, hT, if_pos, List.take_succ_cons,
                Nat.add_sub_cancel] at hq3 ⊢
              simp [hq3]
          · intro q hq
            simp only [List.filter_cons, hT, if_pos, Nat.add_sub_cancel] at hq
            rcases Nat.eq_zero_or_pos m with h0 | h1
            · rw [h0] at hq; simp at hq
            · obtain ⟨k, rfl⟩ : ∃ k, m = k + 1 := ⟨m - 1, by omega⟩
              simp only [List.take_succ_cons] at hq
              rcases List.mem_cons.1 hq with rfl | hq'
              · intro hcon; rw [hcon.1] at hF; exact hF rfl
              · exact hpre q (by simpa using hq')
      · obtain ⟨m, hle, hinv, hra, hres, hstop, hpre⟩ := ih o
        refine ⟨m, ?_, ?_, ?_, ?_, ?_, ?_⟩
        · simpa [List.filter_cons, hT] using hle
        · simpa [runTools, hT, List.filter_cons] using hinv
        · simpa [runTools, hT, List.filter_cons] using hra
        · simpa [runTools, hT, List.filter_cons] using hres
        · simpa [List.filter_cons, hT] using hstop
        · intro q hq
          exact hpre q (by simpa [List.filter_cons, hT] using hq)

/-- C3: during `onToolsLoad` only tools-capable records are invoked (an
initial segment of them, in order); the phase result is `True` iff no invoked
callback raised; if no failing record named `tools_mode` exists among the
tools records, every tools record is invoked; and if an invoked callback
raises and its record's local name is `tools_mode`, the phase result is
failure and that record is the last invoked — no subsequent record is
invoked. -/
theorem claim_C3 (l : PluginLoader) :
    (∀ p ∈ l.on_tools_load.invoked, p.isTools = true) ∧
    (∃ m, l.on_tools_load.invoked =
      (l.orderedOrFallback.filter (fun p => p.isTools)).take m) ∧
    (l.on_tools_load.result = true ↔ l.on_tools_load.raised = []) ∧
    ((∀ p ∈ l.orderedOrFallback.filter (fun p => p.isTools),
        ¬(p.toolsLoadFails = true ∧ p.name = "tools_mode")) →
      l.on_tools_load.invoked =
        l.orderedOrFallback.filter (fun p => p.isTools)) ∧
    (∀ p ∈ l.on_tools_load.invoked, p.toolsLoadFails = true →
      p.name = "tools_mode" →
      l.on_tools_load.result = false ∧
      l.on_tools_load.invoked.getLast? = some p) := by
  obtain ⟨m, hle, hinv, hra, hres, hstop, hpre⟩ :=
    runTools_char l.orderedOrFallback ⟨true, [], []⟩
  have hinv' : l.on_tools_load.invoked =
      (l.orderedOrFallback.filter (fun p => p.isTools)).take m := by
    simpa [PluginLoader.on_tools_load] using hinv
  have hra' : l.on_tools_load.raised =
      ((l.orderedOrFallback.filter (fun p => p.isTools)).take m).filter
        (fun p => p.toolsLoadFails) := by
    simpa [PluginLoader.on_tools_load] using hra
  have hres' : l.on_tools_load.result =
      ((l.orderedOrFallback.filter (fun p => p.isTools)).take m).all
        (fun p => !p.toolsLoadFails) := by
    simpa [PluginLoader.on_tools_load] using hres
  refine ⟨?_, ⟨m, hinv'⟩, ?_, ?_, ?_⟩
  · intro p hp
    rw [hinv'] at hp
    exact (List.mem_filter.1 (List.take_subset _ _ hp)).2
  · rw [hres', hra']
    constructor
    · intro hall
      rw [List.filter_eq_nil_iff]
      intro a ha
      have := (List.all_eq_true.1 hall) a ha
      simpa using this
    · intro hnil
      rw [List.all_eq_true]
      intro a ha
      have := (List.filter_eq_nil_iff.1 hnil) a ha
      simpa using this
  · intro hno
    rcases hstop with h | ⟨q, hq1, hq2, hq3⟩
    · rw [hinv', h, List.take_length]
    · exfalso
      have hqmem : q ∈ (l.orderedOrFallback.filter (fun p => p.isTools)).take m := by
        rw [hq3]; exact List.mem_append_right _ (by simp)
      exact hno q (List.take_subset _ _ hqmem) ⟨hq1, hq2⟩
  · intro p hp hf hn
    rw [hinv'] at hp
    have hm1 : 1 ≤ m := by
      rcases Nat.eq_zero_or_pos m with h0 | h1
      · rw [h0] at hp; simp at hp
      · exact h1
    constructor
    · rw [hres']
      by_contra hcon
      have : ((l.orderedOrFallback.filter (fun p => p.isTools)).take m).all
          (fun p => !p.toolsLoadFails) = true := by
        revert hcon
        cases ((l.orderedOrFallback.filter (fun p => p.isTools)).take m).all
          (fun p => !p.toolsLoadFails) <;> simp
      have := (List.all_eq_true.1 this) p hp
      rw [hf] at this
      simp at this
    · have hlt : m - 1 < (l.orderedOrFallback.filter (fun p => p.isTools)).length := by
        omega
      have htake : (l.orderedOrFallback.filter (fun p => p.isTools)).take m =
          (l.orderedOrFallback.filter (fun p => p.isTools)).take (m - 1) ++
            [(l.orderedOrFallback.filter (fun p => p.isTools)).get ⟨m - 1, hlt⟩] := by
        conv_lhs => rw [show m = (m - 1) + 1 from by omega, List.take_succ]
        simp [List.getElem?_eq_getElem hlt]
      rw [hinv', htake]
      rw [htake] at hp
      rcases List.mem_append.1 hp with hmem | hmem
      · exact absurd ⟨hf, hn⟩ (hpre p hmem)
      · rw [List.mem_singleton.1 hmem]
        exact List.getLast?_concat _

/-- C3 witness: three tools-capable records where the second, named
`tools_mode`, fails: the phase returns failure and `tools_mode` is the last
invoked record (the third is never invoked). -/
theorem claim_C3_witness :
    (toolsModeBad ∈
        (⟨[toolsOk1, toolsModeBad, toolsOk3]⟩ : PluginLoader).on_tools_load.invoked ∧
      toolsModeBad.toolsLoadFails = true ∧ toolsModeBad.name = "tools_mode") ∧
    ((⟨[toolsOk1, toolsModeBad, toolsOk3]⟩ : PluginLoader).on_tools_load.result
        = false ∧
      (⟨[toolsOk1, toolsModeBad, toolsOk3]⟩ :
          PluginLoader).on_tools_load.invoked.getLast? = some toolsModeBad) :=
  ⟨⟨by decide, by decide, by decide⟩,
    (claim_C3 ⟨[toolsOk1, toolsModeBad, toolsOk3]⟩).2.2.2.2 toolsModeBad
      (by decide) (by decide) (by decide)⟩

/-- The type check succeeds when every record's requirement list is
well-typed. -/
theorem checkTypesList_ok : ∀ l : List Plugin,
    (∀ p ∈ l, p.reqResult.isOk = true) → checkTypesList l = .ok () := by
  intro l
  induction l with
  | nil => intro _; rfl
  | cons p rest ih =>
      intro h
      have hp := h p (by simp)
      match hres : p.reqResult with
      | .ok reqs =>
          simp [checkTypesList, Plugin.check_required_plugin_types, hres]
          exact ih (fun q hq => h q (by simp [hq]))
      | .illTyped t => rw [hres] at hp; simp [ReqResult.isOk] at hp

/-- The type check fails with the first ill-typed record's error. -/
theorem checkTypesList_err : ∀ (l : List Plugin) (n : Nat) (hn : n < l.length)
    (t : String), (l.get ⟨n, hn⟩).reqResult = .illTyped t →
    (∀ p ∈ l.take n, p.reqResult.isOk = true) →
    checkTypesList l = .error (.badTypes (l.get ⟨n, hn⟩).str t) := by
  intro l
  induction l with
  | nil => intro n hn; simp at hn
  | cons p rest ih =>
      intro n hn t hIll hFirst
      match n with
      | 0 =>
          simp only [List.get] at hIll ⊢
          simp [checkTypesList, Plugin.check_required_plugin_types, hIll]
      | k + 1 =>
          have hp := hFirst p (by simp [List.take_succ_cons])
          match hres : p.reqResult with
          | .illTyped t' => rw [hres] at hp; simp [ReqResult.isOk] at hp
          | .ok reqs =>
              simp only [List.get] at hIll ⊢
              simp only [checkTypesList, Plugin.check_required_plugin_types, hres]
              exact ih k (by simpa using hn) t hIll
                (fun q hq => hFirst q (by simp [List.take_succ_cons, hq]))

/-- `find?` returns the element at the first position whose predicate holds. -/
theorem find?_first {α : Type} (p : α → Bool) : ∀ (l : List α) (n : Nat)
    (hn : n < l.length), p (l.get ⟨n, hn⟩) = true →
    (∀ x ∈ l.take n, p x = false) → l.find? p = some (l.get ⟨n, hn⟩) := by
  intro l
  induction l with
  | nil => intro n hn; simp at hn
  | cons a rest ih =>
      intro n hn hp hFirst
      match n with
      | 0 =>
          simp only [List.get] at hp ⊢
          rw [List.find?_cons_of_pos _ hp]
      | k + 1 =>
          have ha := hFirst a (by simp [List.take_succ_cons])
          simp only [List.get] at hp ⊢
          rw [List.find?_cons_of_neg _ (by simp [ha])]
          exact ih k (by simpa using hn) hp
            (fun x hx => hFirst x (by simp [List.take_succ_cons, hx]))

/-- C6: when some record's `get_required_plugins()` is not a list of
`RequiredPlugin` values, the whole ordering operation fails with a
`PluginError` naming the first such record (in mapping iteration order) and
the actual type observed.  No hypothesis about missing requirements or cycles
is needed: the type validation runs first, so a malformed requirement list
takes precedence over both other failure modes. -/
theorem claim_C6 (g : PluginGraph) (n : Nat) (hn : n < g.values.length)
    (t : String) (hIll : (g.values.get ⟨n, hn⟩).reqResult = .illTyped t)
    (hFirst : ∀ p ∈ g.values.take n, p.reqResult.isOk = true) :
    g.get_ordered_plugins = .error (.badTypes (g.values.get ⟨n, hn⟩).str t) := by
  have h := checkTypesList_err g.values n hn t hIll hFirst
  simp only [PluginGraph.get_ordered_plugins,
    PluginGraph.check_required_plugin_types, h]
  rfl

/-- C6 witness: a graph whose second record is ill-typed and whose third has
a missing requirement (the type error wins). -/
theorem claim_C6_witness :
    (1 < (PluginGraph.empty.add_all
        [sampleA, illT, mkPlugin "m" "z" [⟨"q", "w"⟩]]).values.length) ∧
    ((PluginGraph.empty.add_all
        [sampleA, illT, mkPlugin "m" "z" [⟨"q", "w"⟩]]).get_ordered_plugins =
      .error (.badTypes "m.t" "builtins.str")) :=
  ⟨by decide,
    claim_C6 (PluginGraph.empty.add_all
        [sampleA, illT, mkPlugin "m" "z" [⟨"q", "w"⟩]]) 1 (by decide)
      "builtins.str" (by decide) (by decide)⟩

/-- C5: when every requirement list is well-typed and some requirement's
resolved key is not present in the graph, the whole operation fails with a
`PluginError` naming the requiring record and the missing requirement, and
the pair reported is the first unresolved one in iteration order (records in
mapping order, then each record's requirements in declaration order — the
order of `reqPairs`). -/
theorem claim_C5 (g : PluginGraph)
    (hwt : ∀ p ∈ g.values, p.reqResult.isOk = true)
    (n : Nat) (hn : n < g.reqPairs.length)
    (hmiss : (g.reqPairs.get ⟨n, hn⟩).2.key ∉ g.keys)
    (hFirst : ∀ pr ∈ g.reqPairs.take n, pr.2.key ∈ g.keys) :
    g.get_ordered_plugins =
      .error (.nonExisting (g.reqPairs.get ⟨n, hn⟩).1.str
        (g.reqPairs.get ⟨n, hn⟩).2.str) := by
  have h1 := checkTypesList_ok g.values hwt
  have h2 : g.reqPairs.find? (fun pr => decide (pr.2.key ∉ g.keys)) =
      some (g.reqPairs.get ⟨n, hn⟩) := by
    apply find?_first
    · simpa using hmiss
    · intro x hx
      simpa using hFirst x hx
  simp only [PluginGraph.get_ordered_plugins,
    PluginGraph.check_required_plugin_types, h1,
    PluginGraph.check_for_non_existing_requirements, h2]
  rfl

/-- C5 witness: record `m.z` declares a satisfied requirement followed by a
missing one (`q.w`); the error names `m.z` and `q.w`. -/
theorem claim_C5_witness :
    (1 < (PluginGraph.empty.add_all
        [sampleA, mkPlugin "m" "z" [⟨"m", "a"⟩, ⟨"q", "w"⟩]]).reqPairs.length) ∧
    ((PluginGraph.empty.add_all
        [sampleA, mkPlugin "m" "z" [⟨"m", "a"⟩, ⟨"q", "w"⟩]]).get_ordered_plugins
      = .error (.nonExisting "m.z" "q.w")) :=
  ⟨by decide,
    claim_C5 (PluginGraph.empty.add_all
        [sampleA, mkPlugin "m" "z" [⟨"m", "a"⟩, ⟨"q", "w"⟩]]) (by decide) 1
      (by decide) (by decide) (by decide)⟩

/-- When both validation steps pass, `get_ordered_plugins` is the sort. -/
theorem ordered_eq_sorted (g : PluginGraph)
    (h1 : g.check_required_plugin_types = .ok ())
    (h2 : g.check_for_non_existing_requirements = .ok ()) :
    g.get_ordered_plugins = g.get_sorted_plugins := by
  unfold PluginGraph.get_ordered_plugins
  rw [h1, h2]
  rfl

/-- C9: a requirement declared with an empty module is resolved to the
declaring plugin's own module before its key is computed: plugin `(x, b)`
declaring requirement `(module = "", plugin = a)` exposes the resolved
requirement with key `(x, a)`, and in a graph also containing a record keyed
`(x, a)` the requirement is satisfied: the missing-requirement check passes
and ordering succeeds with the required record first. -/
theorem claim_C9 (x a b : String) (hab : a ≠ b) :
    (mkPlugin x b [⟨"", a⟩]).requirements = [⟨x, a⟩] ∧
    RequiredPlugin.key ⟨x, a⟩ = (x, a) ∧
    (PluginGraph.empty.add_all
        [mkPlugin x a [], mkPlugin x b [⟨"", a⟩]]).check_for_non_existing_requirements
      = .ok () ∧
    (PluginGraph.empty.add_all
        [mkPlugin x a [], mkPlugin x b [⟨"", a⟩]]).get_ordered_plugins =
      .ok [mkPlugin x a [], mkPlugin x b [⟨"", a⟩]] := by
  have hba : b ≠ a := Ne.symm hab
  have hplugins : (PluginGraph.empty.add_all
      [mkPlugin x a [], mkPlugin x b [⟨"", a⟩]]).plugins =
      [((x, a), mkPlugin x a []), ((x, b), mkPlugin x b [⟨"", a⟩])] := by
    simp [PluginGraph.add_all, PluginGraph.add, PluginGraph.empty, dictInsert,
      mkPlugin, Plugin.key, hba, hab]
  have hreq : (mkPlugin x b [⟨"", a⟩]).requirements = [⟨x, a⟩] := by
    simp [mkPlugin, Plugin.requirements]
  have h1 : (PluginGraph.empty.add_all
      [mkPlugin x a [], mkPlugin x b [⟨"", a⟩]]).check_required_plugin_types
      = .ok () := by
    simp only [PluginGraph.check_required_plugin_types, PluginGraph.values,
      hplugins]
    simp [checkTypesList, Plugin.check_required_plugin_types, mkPlugin]
  have h2 : (PluginGraph.empty.add_all
      [mkPlugin x a [], mkPlugin x b [⟨"", a⟩]]).check_for_non_existing_requirements
      = .ok () := by
    simp only [PluginGraph.check_for_non_existing_requirements,
      PluginGraph.reqPairs, PluginGraph.values, PluginGraph.keys, hplugins]
    simp [hreq, mkPlugin, Plugin.requirements, RequiredPlugin.key]
  have h3 : (PluginGraph.empty.add_all
      [mkPlugin x a [], mkPlugin x b [⟨"", a⟩]]).get_sorted_plugins =
      .ok [mkPlugin x a [], mkPlugin x b [⟨"", a⟩]] := by
    simp only [PluginGraph.get_sorted_plugins, hplugins]
    simp [sortLoop, onePass, runPass, placePlugin, allReqsPlaced,
      Plugin.requirements, mkPlugin, RequiredPlugin.key, hba, hab, cycleError,
      unplacedPlugins]
  exact ⟨hreq, rfl, h2, by rw [ordered_eq_sorted _ h1 h2, h3]⟩

/-- C9 witness: the scenario at concrete names. -/
theorem claim_C9_witness :
    ("a" : String) ≠ "b" ∧
    (mkPlugin "x" "b" [⟨"", "a"⟩]).requirements = [⟨"x", "a"⟩] ∧
    (PluginGraph.empty.add_all
        [mkPlugin "x" "a" [], mkPlugin "x" "b" [⟨"", "a"⟩]]).get_ordered_plugins
      = .ok [mkPlugin "x" "a" [], mkPlugin "x" "b" [⟨"", "a"⟩]] :=
  ⟨by decide, (claim_C9 "x" "a" "b" (by decide)).1,
    (claim_C9 "x" "a" "b" (by decide)).2.2.2⟩

theorem allReqsPlaced_iff (p : Plugin) (placed : List Key) :
    allReqsPlaced p placed = true ↔ ∀ r ∈ p.requirements, r.key ∈ placed := by
  simp [allReqsPlaced]

theorem placePlugin_inv {items : List (Key × Plugin)} {s : SortState}
    {kv : Key × Plugin} (hcons : kv.1 = kv.2.key) (hmem : kv ∈ items)
    (h : SortInv items s) : SortInv items (placePlugin s kv) := by
  by_cases h1 : kv.1 ∈ s.placedKeys
  · simpa [placePlugin, h1] using h
  · by_cases h2 : allReqsPlaced kv.2 s.placedKeys = true
    · have hres : placePlugin s kv =
          ⟨s.ordered ++ [kv.2], s.placedKeys ++ [kv.1], true⟩ := by
        simp [placePlugin, h1, h2]
      rw [hres]
      refine ⟨?_, ?_, ?_, ?_⟩
      · simp [h.placed_eq, hcons]
      · intro p hp
        rcases List.mem_append.1 hp with hp | hp
        · exact h.mem_items p hp
        · rw [List.mem_singleton.1 hp, ← hcons]
          have : (kv.1, kv.2) = kv := rfl
          rw [this]
          exact hmem
      · simp [List.nodup_append, h.nodup, h1]
      · exact h.sorted.snoc (by
          intro r hr
          rw [← h.placed_eq]
          exact (allReqsPlaced_iff kv.2 s.placedKeys).1 h2 r hr)
    · simpa [placePlugin, h1, h2] using h

theorem runPass_inv {items : List (Key × Plugin)} :
    ∀ (sub : List (Key × Plugin)) (s : SortState),
    (∀ kv ∈ sub, kv ∈ items) → (∀ kv ∈ sub, kv.1 = kv.2.key) →
    SortInv items s → SortInv items (runPass sub s) := by
  intro sub
  induction sub with
  | nil => intro s _ _ h; exact h
  | cons kv rest ih =>
      intro s hmem hcons h
      exact ih (placePlugin s kv)
        (fun x hx => hmem x (by simp [hx]))
        (fun x hx => hcons x (by simp [hx]))
        (placePlugin_inv (hcons kv (by simp)) (hmem kv (by simp)) h)

theorem placePlugin_appended_mono {s : SortState} {kv : Key × Plugin}
    (h : s.appended = true) : (placePlugin s kv).appended = true := by
  unfold placePlugin
  split_ifs <;> simp [h]

theorem runPass_appended_mono : ∀ (sub : List (Key × Plugin)) (s : SortState),
    s.appended = true → (runPass sub s).appended = true := by
  intro sub
  induction sub with
  | nil => intro s h; exact h
  | cons kv rest ih =>
      intro s h
      exact ih (placePlugin s kv) (placePlugin_appended_mono h)

theorem placePlugin_not_appended {s : SortState} {kv : Key × Plugin}
    (h : (placePlugin s kv).appended = false) :
    placePlugin s kv = s ∧
      (kv.1 ∉ s.placedKeys → allReqsPlaced kv.2 s.placedKeys = false) := by
  by_cases h1 : kv.1 ∈ s.placedKeys
  · exact ⟨by simp [placePlugin, h1], fun hc => absurd h1 hc⟩
  · by_cases h2 : allReqsPlaced kv.2 s.placedKeys = true
    · exfalso
      rw [show placePlugin s kv =
          ⟨s.ordered ++ [kv.2], s.placedKeys ++ [kv.1], true⟩ from by
        simp [placePlugin, h1, h2]] at h
      simp at h
    · exact ⟨by simp [placePlugin, h1, h2], fun _ => by simpa using h2⟩

theorem runPass_not_appended : ∀ (sub : List (Key × Plugin)) (s : SortState),
    (runPass sub s).appended = false →
    runPass sub s = s ∧ ∀ kv ∈ sub, kv.1 ∉ s.placedKeys →
      allReqsPlaced kv.2 s.placedKeys = false := by
  intro sub
  induction sub with
  | nil => intro s h; exact ⟨rfl, by simp⟩
  | cons kv rest ih =>
      intro s h
      have h1 : (placePlugin s kv).appended = false := by
        by_contra hc
        have h1t : (placePlugin s kv).appended = true := by
          revert hc; cases (placePlugin s kv).appended <;> simp
        have := runPass_appended_mono rest (placePlugin s kv) h1t
        rw [show runPass rest (placePlugin s kv) = runPass (kv :: rest) s
          from rfl] at this
        rw [this] at h
        simp at h
      obtain ⟨heq, hcond⟩ := placePlugin_not_appended h1
      have h2 : (runPass rest s).appended = false := by
        have : runPass (kv :: rest) s = runPass rest s := by
          show runPass rest (placePlugin s kv) = runPass rest s
          rw [heq]
        rw [this] at h
        exact h
      obtain ⟨heq2, hcond2⟩ := ih s h2
      refine ⟨?_, ?_⟩
      · show runPass rest (placePlugin s kv) = s
        rw [heq, heq2]
      · intro x hx hnp
        rcases List.mem_cons.1 hx with rfl | hx'
        · exact hcond hnp
        · exact hcond2 x hx' hnp

theorem placePlugin_length_mono {s : SortState} (kv : Key × Plugin) :
    s.ordered.length ≤ (placePlugin s kv).ordered.length := by
  unfold placePlugin
  split_ifs <;> simp

theorem runPass_length_mono : ∀ (sub : List (Key × Plugin)) (s : SortState),
    s.ordered.length ≤ (runPass sub s).ordered.length := by
  intro sub
  induction sub with
  | nil => intro s; exact le_refl _
  | cons kv rest ih =>
      intro s
      exact le_trans (placePlugin_length_mono kv) (ih (placePlugin s kv))

theorem runPass_appended_grow : ∀ (sub : List (Key × Plugin)) (s : SortState),
    s.appended = false → (runPass sub s).appended = true →
    s.ordered.length + 1 ≤ (runPass sub s).ordered.length := by
  intro sub
  induction sub with
  | nil => intro s h1 h2; rw [show runPass [] s = s from rfl] at h2
           rw [h1] at h2; simp at h2
  | cons kv rest ih =>
      intro s h1 h2
      by_cases hp : kv.1 ∈ s.placedKeys
      · have heq : placePlugin s kv = s := by simp [placePlugin, hp]
        rw [show runPass (kv :: rest) s = runPass rest (placePlugin s kv)
          from rfl, heq] at h2 ⊢
        exact ih s h1 h2
      · by_cases h2' : allReqsPlaced kv.2 s.placedKeys = true
        · have heq : placePlugin s kv =
              ⟨s.ordered ++ [kv.2], s.placedKeys ++ [kv.1], true⟩ := by
            simp [placePlugin, hp, h2']
          rw [show runPass (kv :: rest) s = runPass rest (placePlugin s kv)
            from rfl, heq]
          have := runPass_length_mono rest
            ⟨s.ordered ++ [kv.2], s.placedKeys ++ [kv.1], true⟩
          simp at this
          omega
        · have heq : placePlugin s kv = s := by simp [placePlugin, hp, h2']
          rw [show runPass (kv :: rest) s = runPass rest (placePlugin s kv)
            from rfl, heq] at h2 ⊢
          exact ih s h1 h2

theorem runPass_ext : ∀ (sub : List (Key × Plugin)) (s : SortState),
    (∀ kv ∈ sub, kv.1 = kv.2.key) →
    ∃ ext, (runPass sub s).ordered = s.ordered ++ ext ∧
      (runPass sub s).placedKeys = s.placedKeys ++ ext.map Plugin.key ∧
      ext.Sublist (sub.map (fun kv => kv.2)) ∧
      ∀ p ∈ ext, p.key ∉ s.placedKeys ∧ (p.key, p) ∈ sub := by
  intro sub
  induction sub with
  | nil => intro s _; exact ⟨[], by simp [runPass]⟩
  | cons kv rest ih =>
      intro s hc
      by_cases h1 : kv.1 ∈ s.placedKeys
      · have heq : placePlugin s kv = s := by simp [placePlugin, h1]
        obtain ⟨ext, he1, he2, hsub, hprops⟩ :=
          ih s (fun x hx => hc x (by simp [hx]))
        refine ⟨ext, ?_, ?_, ?_, ?_⟩
        · rw [show runPass (kv :: rest) s = runPass rest (placePlugin s kv)
            from rfl, heq]; exact he1
        · rw [show runPass (kv :: rest) s = runPass rest (placePlugin s kv)
            from rfl, heq]; exact he2
        · exact hsub.trans (by simp)
        · intro p hp; exact ⟨(hprops p hp).1, by simp [(hprops p hp).2]⟩
      · by_cases h2 : allReqsPlaced kv.2 s.placedKeys = true
        · have heq : placePlugin s kv =
              ⟨s.ordered ++ [kv.2], s.placedKeys ++ [kv.1], true⟩ := by
            simp [placePlugin, h1, h2]
          obtain ⟨ext, he1, he2, hsub, hprops⟩ :=
            ih ⟨s.ordered ++ [kv.2], s.placedKeys ++ [kv.1], true⟩
              (fun x hx => hc x (by simp [hx]))
          have hckv := hc kv (by simp)
          refine ⟨kv.2 :: ext, ?_, ?_, ?_, ?_⟩
          · rw [show runPass (kv :: rest) s = runPass rest (placePlugin s kv)
              from rfl, heq, he1]
            simp
          · rw [show runPass (kv :: rest) s = runPass rest (placePlugin s kv)
              from rfl, heq, he2]
            simp [hckv]
          · simpa using List.Sublist.cons₂ kv.2 hsub
          · intro p hp
            rcases List.mem_cons.1 hp with rfl | hp'
            · exact ⟨by rw [← hckv]; exact h1, by rw [← hckv]; simp⟩
            · refine ⟨?_, by simp [(hprops p hp').2]⟩
              have := (hprops p hp').1
              intro hcon
              exact this (by simp [hcon])
        · have heq : placePlugin s kv = s := by simp [placePlugin, h1, h2]
          obtain ⟨ext, he1, he2, hsub, hprops⟩ :=
            ih s (fun x hx => hc x (by simp [hx]))
          refine ⟨ext, ?_, ?_, ?_, ?_⟩
          · rw [show runPass (kv :: rest) s = runPass rest (placePlugin s kv)
              from rfl, heq]; exact he1
          · rw [show runPass (kv :: rest) s = runPass rest (placePlugin s kv)
              from rfl, heq]; exact he2
          · exact hsub.trans (by simp)
          · intro p hp; exact ⟨(hprops p hp).1, by simp [(hprops p hp).2]⟩

theorem runPass_placed_mono : ∀ (sub : List (Key × Plugin)) (s : SortState)
    (k : Key), k ∈ s.placedKeys → k ∈ (runPass sub s).placedKeys := by
  intro sub
  induction sub with
  | nil => intro s k h; exact h
  | cons kv rest ih =>
      intro s k h
      apply ih
      unfold placePlugin
      split_ifs <;> simp [h]

theorem runPass_place_noreq : ∀ (sub : List (Key × Plugin)) (s : SortState),
    ∀ kv ∈ sub, kv.2.requirements = [] →
    kv.1 ∈ (runPass sub s).placedKeys := by
  intro sub
  induction sub with
  | nil => intro s kv h; simp at h
  | cons kv' rest ih =>
      intro s kv hmem hreq
      rcases List.mem_cons.1 hmem with rfl | hmem'
      · show kv.1 ∈ (runPass rest (placePlugin s kv)).placedKeys
        apply runPass_placed_mono
        by_cases h1 : kv.1 ∈ s.placedKeys
        · simp [placePlugin, h1, h1]
        · have h2 : allReqsPlaced kv.2 s.placedKeys = true := by
            simp [allReqsPlaced, hreq]
          rw [show placePlugin s kv =
              ⟨s.ordered ++ [kv.2], s.placedKeys ++ [kv.1], true⟩ from by
            simp [placePlugin, h1, h2]]
          simp
      · exact ih (placePlugin s kv') kv hmem' hreq

theorem inv_length_le {items : List (Key × Plugin)} {s : SortState}
    (h : SortInv items s) :
    s.ordered.length ≤ items.length := by
  have hsub : s.placedKeys ⊆ items.map (fun kv => kv.1) := by
    rw [h.placed_eq]
    intro k hk
    rcases List.mem_map.1 hk with ⟨p, hp, rfl⟩
    exact List.mem_map.2 ⟨(p.key, p), h.mem_items p hp, rfl⟩
  have hle := (List.subperm_of_subset h.nodup hsub).length_le
  have h1 : s.placedKeys.length = s.ordered.length := by
    rw [h.placed_eq]; simp
  simp at hle
  omega

theorem keyUnique : ∀ {items : List (Key × Plugin)},
    (items.map (fun kv => kv.1)).Nodup → ∀ {k : Key} {p q : Plugin},
    (k, p) ∈ items → (k, q) ∈ items → p = q := by
  intro items
  induction items with
  | nil => intro _ k p q hp; simp at hp
  | cons kv rest ih =>
      intro hnd k p q hp hq
      simp only [List.map_cons, List.nodup_cons] at hnd
      rcases List.mem_cons.1 hp with hp' | hp' <;>
        rcases List.mem_cons.1 hq with hq' | hq'
      · rw [← hp'] at hq'; exact (Prod.mk.injEq _ _ _ _ ▸ hq' : _ ∧ _).2.symm
      · exfalso
        apply hnd.1
        rw [← hp']
        exact List.mem_map.2 ⟨(k, q), hq', rfl⟩
      · exfalso
        apply hnd.1
        rw [← hq']
        exact List.mem_map.2 ⟨(k, p), hp', rfl⟩
      · exact ih hnd.2 hp' hq'

theorem transGen_rotate {α : Type} {r : α → α → Prop} {k : α}
    (h : Relation.TransGen r k k) : ∃ c, r k c ∧ Relation.TransGen r c c := by
  rcases Relation.TransGen.head'_iff.1 h with ⟨c, hkc, hck⟩
  exact ⟨c, hkc, Relation.TransGen.tail' hck hkc⟩

/-- A record lying on a requirement cycle never enters the output: the sort
invariant forces each placed record's requirements to be placed earlier, so a
cycle member placed anywhere would yield an earlier cycle member, without
end. -/
theorem cycle_not_placed {items : List (Key × Plugin)}
    (hnd : (items.map (fun kv => kv.1)).Nodup) :
    ∀ {l : List Plugin}, SortedOut l → (∀ p ∈ l, (p.key, p) ∈ items) →
    ∀ k, Relation.TransGen (reqEdgeL items) k k → k ∉ l.map Plugin.key := by
  intro l hs
  induction hs with
  | nil => intro _ k _ h; simp at h
  | snoc hl hreqs ih =>
      rename_i l p
      intro hmem k hcyc hk
      rw [List.map_append] at hk
      rcases List.mem_append.1 hk with hk | hk
      · exact ih (fun q hq => hmem q (List.mem_append_left _ hq)) k hcyc hk
      · have hkp : k = p.key := by simpa using hk
        obtain ⟨c, hkc, hcc⟩ := transGen_rotate hcyc
        obtain ⟨kv, hkvmem, hkv1, r, hr, hrkey⟩ := hkc
        have hpmem : (p.key, p) ∈ items := hmem p (by simp)
        have hkvmem' : (k, kv.2) ∈ items := by
          rw [← hkv1]; exact hkvmem
        have hkv2p : kv.2 = p := keyUnique hnd hkvmem' (hkp ▸ hpmem)
        have hc_in : c ∈ l.map Plugin.key := by
          rw [← hrkey]
          exact hreqs r (hkv2p ▸ hr)
        exact ih (fun q hq => hmem q (List.mem_append_left _ hq)) c hcc hc_in

/-- In a stuck state, `stuckNext` sends every unplaced key to an unplaced key
along a requirement edge. -/
theorem stuckNext_spec {items : List (Key × Plugin)} {placed : List Key}
    (hpres : ∀ kv ∈ items, ∀ r ∈ kv.2.requirements,
      r.key ∈ items.map (fun kv => kv.1))
    (hstuck : ∀ kv ∈ items, kv.1 ∉ placed →
      allReqsPlaced kv.2 placed = false)
    {k : Key} (hk : k ∈ items.map (fun kv => kv.1)) (hknp : k ∉ placed) :
    (stuckNext items placed k ∈ items.map (fun kv => kv.1) ∧
      stuckNext items placed k ∉ placed) ∧
    reqEdgeL items k (stuckNext items placed k) := by
  obtain ⟨kv, hkvmem, hkv1⟩ : ∃ kv ∈ items, kv.1 = k := by
    rcases List.mem_map.1 hk with ⟨kv, hkv, h1⟩
    exact ⟨kv, hkv, h1⟩
  have h1 : (items.find? (fun kv => kv.1 = k)).isSome := by
    rw [List.find?_isSome]
    exact ⟨kv, hkvmem, by simp [hkv1]⟩
  obtain ⟨kv', hkv'⟩ := Option.isSome_iff_exists.1 h1
  have hkv'mem : kv' ∈ items := List.mem_of_find?_eq_some hkv'
  have hkv'1 : kv'.1 = k := by simpa using List.find?_some hkv'
  have hff : allReqsPlaced kv'.2 placed = false :=
    hstuck kv' hkv'mem (by rw [hkv'1]; exact hknp)
  have hexr : ∃ r ∈ kv'.2.requirements, r.key ∉ placed := by
    by_contra hc
    push_neg at hc
    have : allReqsPlaced kv'.2 placed = true := by
      rw [allReqsPlaced_iff]
      intro r hr
      by_contra hcc
      exact hcc (hc r hr)
    rw [this] at hff
    simp at hff
  obtain ⟨r0, hr0mem, hr0np⟩ := hexr
  have h2 : (kv'.2.requirements.find? (fun r => decide (r.key ∉ placed))).isSome := by
    rw [List.find?_isSome]
    exact ⟨r0, hr0mem, by simpa using hr0np⟩
  obtain ⟨r', hr'⟩ := Option.isSome_iff_exists.1 h2
  have hr'mem : r' ∈ kv'.2.requirements := List.mem_of_find?_eq_some hr'
  have hr'np : r'.key ∉ placed := by simpa using List.find?_some hr'
  have hr'2 : kv'.2.requirements.find? (fun r => !decide (r.key ∈ placed)) =
      some r' := by simpa using hr'
  have heq : stuckNext items placed k = r'.key := by
    simp [stuckNext, hkv', hr'2]
  refine ⟨⟨?_, ?_⟩, ?_⟩
  · rw [heq]; exact hpres kv' hkv'mem r' hr'mem
  · rw [heq]; exact hr'np
  · rw [heq]; exact ⟨kv', hkv'mem, hkv'1, r', hr'mem, rfl⟩

/-- A stuck state with an unplaced record yields a requirement cycle: iterate
the unplaced-successor function and apply the pigeonhole principle. -/
theorem stuck_cycle {items : List (Key × Plugin)} {placed : List Key}
    (hnd : (items.map (fun kv => kv.1)).Nodup)
    (hpres : ∀ kv ∈ items, ∀ r ∈ kv.2.requirements,
      r.key ∈ items.map (fun kv => kv.1))
    (hstuck : ∀ kv ∈ items, kv.1 ∉ placed →
      allReqsPlaced kv.2 placed = false)
    {k0 : Key} (hk0 : k0 ∈ items.map (fun kv => kv.1)) (hk0np : k0 ∉ placed) :
    ∃ c, Relation.TransGen (reqEdgeL items) c c := by
  set f := stuckNext items placed with hf
  set UK := (items.map (fun kv => kv.1)).filter (fun k => decide (k ∉ placed))
    with hUKdef
  have hUK : ∀ k, k ∈ UK → f k ∈ UK ∧ reqEdgeL items k (f k) := by
    intro k hk
    have h1 : k ∈ items.map (fun kv => kv.1) := List.mem_of_mem_filter hk
    have h2 : k ∉ placed := by simpa using List.of_mem_filter hk
    obtain ⟨⟨ha, hb⟩, hc⟩ := stuckNext_spec hpres hstuck h1 h2
    exact ⟨List.mem_filter.2 ⟨ha, by simpa using hb⟩, hc⟩
  have hk0UK : k0 ∈ UK := List.mem_filter.2 ⟨hk0, by simpa using hk0np⟩
  have hiterK : ∀ (k : Key), k ∈ UK → ∀ n, f^[n] k ∈ UK := by
    intro k hk n
    induction n with
    | zero => simpa using hk
    | succ n ih => rw [Function.iterate_succ_apply']; exact (hUK _ ih).1
  have hpath : ∀ (k : Key), k ∈ UK → ∀ n, 0 < n →
      Relation.TransGen (reqEdgeL items) k (f^[n] k) := by
    intro k hk n hn
    induction n with
    | zero => omega
    | succ n ih =>
        rcases Nat.eq_zero_or_pos n with rfl | hn'
        · rw [show (0 : Nat) + 1 = 1 from rfl, Function.iterate_one]
          exact Relation.TransGen.single (hUK k hk).2
        · rw [Function.iterate_succ_apply']
          exact Relation.TransGen.tail (ih hn') (hUK _ (hiterK k hk n)).2
  have hUKnodup : UK.Nodup := hnd.filter _
  have hcard : UK.toFinset.card = UK.length :=
    List.toFinset_card_of_nodup hUKnodup
  have hmaps : ∀ i ∈ Finset.range (UK.length + 1),
      f^[i] k0 ∈ UK.toFinset := by
    intro i _
    rw [List.mem_toFinset]
    exact hiterK k0 hk0UK i
  have hlt : UK.toFinset.card < (Finset.range (UK.length + 1)).card := by
    rw [hcard, Finset.card_range]
    omega
  obtain ⟨i, hi, j, hj, hij, hfij⟩ :=
    Finset.exists_ne_map_eq_of_card_lt_of_maps_to hlt hmaps
  have main : ∀ (a b : Nat), a < b → f^[a] k0 = f^[b] k0 →
      ∃ c, Relation.TransGen (reqEdgeL items) c c := by
    intro a b hab heq
    refine ⟨f^[a] k0, ?_⟩
    have h1 : Relation.TransGen (reqEdgeL items) (f^[a] k0)
        (f^[b - a] (f^[a] k0)) :=
      hpath _ (hiterK k0 hk0UK a) (b - a) (by omega)
    rw [← Function.iterate_add_apply] at h1
    rw [show b - a + a = b from by omega] at h1
    rw [← heq] at h1
    exact h1
  rcases hij.lt_or_lt with hlt' | hlt'
  · exact main i j hlt' hfij
  · exact main j i hlt' hfij.symm

/-- A rank function strictly decreasing along requirement edges certifies
acyclicity. -/
theorem acyclic_of_rank {items : List (Key × Plugin)} (rank : Key → Nat)
    (h : ∀ kv ∈ items, ∀ r ∈ kv.2.requirements, rank r.key < rank kv.1) :
    ∀ k, ¬ Relation.TransGen (reqEdgeL items) k k := by
  have hedge : ∀ a b, reqEdgeL items a b → rank b < rank a := by
    rintro a b ⟨kv, hkv, h1, r, hr, h2⟩
    rw [← h1, ← h2]
    exact h kv hkv r hr
  have htrans : ∀ a b, Relation.TransGen (reqEdgeL items) a b →
      rank b < rank a := by
    intro a b hab
    induction hab with
    | single hstep => exact hedge _ _ hstep
    | tail _ hstep ih => exact lt_trans (hedge _ _ hstep) ih
  intro k hk
  exact lt_irrefl _ (htrans k k hk)

/-- Splitting an append-with-singleton equality. -/
theorem concat_eq_concat {α : Type} {l l' : List α} {a b : α}
    (h : l ++ [a] = l' ++ [b]) : l = l' ∧ a = b := by
  have hrev := congrArg List.reverse h
  simp only [List.reverse_append, List.reverse_cons, List.reverse_nil,
    List.nil_append, List.singleton_append] at hrev
  obtain ⟨h1, h2⟩ := List.cons.inj hrev
  exact ⟨by
    have := congrArg List.reverse h2
    simpa using this, h1⟩

/-- In a `SortedOut` sequence, each record's requirements have keys occurring
strictly earlier. -/
theorem sortedOut_prec : ∀ {l : List Plugin}, SortedOut l →
    ∀ (pre : List Plugin) (q : Plugin) (post : List Plugin),
    l = pre ++ q :: post → ∀ r ∈ q.requirements,
    r.key ∈ pre.map Plugin.key := by
  intro l hs
  induction hs with
  | nil =>
      intro pre q post h
      exact absurd h (by simp)
  | snoc hl hreqs ih =>
      rename_i l p
      intro pre q post heq r hr
      rcases List.eq_nil_or_concat post with rfl | ⟨post', a, rfl⟩
      · obtain ⟨h1, h2⟩ := concat_eq_concat heq.symm
        rw [h1]
        exact hreqs r (h2 ▸ hr)
      · have heq2 : l ++ [p] = (pre ++ q :: post') ++ [a] := by
          rw [heq]
          simp [List.concat_eq_append]
        obtain ⟨h1, _⟩ := concat_eq_concat heq2
        exact ih pre q post' h1 r hr

theorem sortLoop_step (items : List (Key × Plugin)) (fuel : Nat)
    (s : SortState) : sortLoop items (fuel + 1) s =
    if (onePass items s).appended then sortLoop items fuel (onePass items s)
    else if (onePass items s).ordered.length ≠ items.length then
      .error (cycleError items (onePass items s).placedKeys)
    else .ok (onePass items s).ordered := rfl

theorem resetInv {items : List (Key × Plugin)} {s : SortState}
    (h : SortInv items s) :
    SortInv items ⟨s.ordered, s.placedKeys, false⟩ :=
  ⟨h.placed_eq, h.mem_items, h.nodup, h.sorted⟩

theorem onePassInv {items : List (Key × Plugin)} {s : SortState}
    (hcons : ∀ kv ∈ items, kv.1 = kv.2.key) (h : SortInv items s) :
    SortInv items (onePass items s) :=
  runPass_inv items ⟨s.ordered, s.placedKeys, false⟩ (fun _ h => h) hcons
    (resetInv h)

theorem sortLoop_ok_char {items : List (Key × Plugin)}
    (hcons : ∀ kv ∈ items, kv.1 = kv.2.key) :
    ∀ (fuel : Nat) (s : SortState) (l : List Plugin), SortInv items s →
    sortLoop items fuel s = .ok l →
    SortedOut l ∧ (∀ p ∈ l, (p.key, p) ∈ items) ∧
      (l.map Plugin.key).Nodup ∧ l.length = items.length := by
  intro fuel
  induction fuel with
  | zero => intro s l _ h; simp [sortLoop] at h
  | succ fuel ih =>
      intro s l hinv heq
      rw [sortLoop_step] at heq
      have hinvt : SortInv items (onePass items s) := onePassInv hcons hinv
      by_cases happ : (onePass items s).appended = true
      · rw [if_pos happ] at heq
        exact ih (onePass items s) l hinvt heq
      · rw [if_neg happ] at heq
        by_cases hlen : (onePass items s).ordered.length ≠ items.length
        · rw [if_pos hlen] at heq; simp at heq
        · rw [if_neg hlen] at heq
          injection heq with heq2
          rw [← heq2]
          refine ⟨hinvt.sorted, hinvt.mem_items, ?_, by omega⟩
          have := hinvt.nodup
          rw [hinvt.placed_eq] at this
          exact this

theorem sortLoop_error_char {items : List (Key × Plugin)}
    (hcons : ∀ kv ∈ items, kv.1 = kv.2.key) :
    ∀ (fuel : Nat) (s : SortState) (e : PluginError), SortInv items s →
    sortLoop items fuel s = .error e →
    ∃ s', SortInv items s' ∧ e = cycleError items s'.placedKeys := by
  intro fuel
  induction fuel with
  | zero =>
      intro s e hinv heq
      simp only [sortLoop, Except.error.injEq] at heq
      exact ⟨s, hinv, heq.symm⟩
  | succ fuel ih =>
      intro s e hinv heq
      rw [sortLoop_step] at heq
      have hinvt : SortInv items (onePass items s) := onePassInv hcons hinv
      by_cases happ : (onePass items s).appended = true
      · rw [if_pos happ] at heq
        exact ih (onePass items s) e hinvt heq
      · rw [if_neg happ] at heq
        by_cases hlen : (onePass items s).ordered.length ≠ items.length
        · rw [if_pos hlen] at heq
          injection heq with heq2
          exact ⟨onePass items s, hinvt, heq2.symm⟩
        · rw [if_neg hlen] at heq; simp at heq

theorem sortLoop_success {items : List (Key × Plugin)}
    (hcons : ∀ kv ∈ items, kv.1 = kv.2.key)
    (hnd : (items.map (fun kv => kv.1)).Nodup)
    (hpres : ∀ kv ∈ items, ∀ r ∈ kv.2.requirements,
      r.key ∈ items.map (fun kv => kv.1))
    (hacyc : ∀ k, ¬ Relation.TransGen (reqEdgeL items) k k) :
    ∀ (fuel : Nat) (s : SortState), SortInv items s →
    items.length + 1 ≤ fuel + s.ordered.length →
    ∃ l, sortLoop items fuel s = .ok l := by
  intro fuel
  induction fuel with
  | zero =>
      intro s hinv hfuel
      exfalso
      have := inv_length_le hinv
      omega
  | succ fuel ih =>
      intro s hinv hfuel
      rw [sortLoop_step]
      have hinvt : SortInv items (onePass items s) := onePassInv hcons hinv
      by_cases happ : (onePass items s).appended = true
      · rw [if_pos happ]
        apply ih (onePass items s) hinvt
        have hgrow : s.ordered.length + 1 ≤ (onePass items s).ordered.length :=
          runPass_appended_grow items ⟨s.ordered, s.placedKeys, false⟩ rfl happ
        omega
      · have happf : (onePass items s).appended = false := by
          revert happ; cases (onePass items s).appended <;> simp
        rw [if_neg happ]
        obtain ⟨heqt, hstuck⟩ :=
          runPass_not_appended items ⟨s.ordered, s.placedKeys, false⟩ happf
        by_cases hlen : (onePass items s).ordered.length ≠ items.length
        · exfalso
          have hlt : (onePass items s).ordered.length < items.length :=
            lt_of_le_of_ne (inv_length_le hinvt) hlen
          have hex : ∃ kv ∈ items, kv.1 ∉ (onePass items s).placedKeys := by
            by_contra hc
            push_neg at hc
            have hsub : (items.map (fun kv => kv.1)) ⊆
                (onePass items s).placedKeys := by
              intro k hk
              rcases List.mem_map.1 hk with ⟨kv, hkv, rfl⟩
              exact hc kv hkv
            have hle := (List.subperm_of_subset hnd hsub).length_le
            have hpl : (onePass items s).placedKeys.length =
                (onePass items s).ordered.length := by
              rw [hinvt.placed_eq]; simp
            simp at hle
            omega
          obtain ⟨kv, hkvmem, hknp⟩ := hex
          have hplaced : (onePass items s).placedKeys = s.placedKeys := by
            show (runPass items ⟨s.ordered, s.placedKeys, false⟩).placedKeys =
              s.placedKeys
            rw [heqt]
          rw [hplaced] at hknp
          obtain ⟨c, hc⟩ := stuck_cycle hnd hpres hstuck
            (List.mem_map.2 ⟨kv, hkvmem, rfl⟩) hknp
          exact absurd hc (hacyc c)
        · rw [if_neg hlen]
          exact ⟨_, rfl⟩

theorem sortLoop_noreq {items : List (Key × Plugin)}
    (hcons : ∀ kv ∈ items, kv.1 = kv.2.key) :
    ∀ (fuel : Nat) (s : SortState) (l : List Plugin),
    (∀ kv ∈ items, kv.2.requirements = [] → kv.1 ∈ s.placedKeys) →
    sortLoop items fuel s = .ok l →
    l.filter noRequirements = s.ordered.filter noRequirements := by
  intro fuel
  induction fuel with
  | zero => intro s l _ h; simp [sortLoop] at h
  | succ fuel ih =>
      intro s l hnp heq
      rw [sortLoop_step] at heq
      obtain ⟨ext, he1, he2, hsub, hprops⟩ :=
        runPass_ext items ⟨s.ordered, s.placedKeys, false⟩ hcons
      have he1' : (onePass items s).ordered = s.ordered ++ ext := he1
      have he2' : (onePass items s).placedKeys =
          s.placedKeys ++ ext.map Plugin.key := he2
      have hextnr : ∀ p ∈ ext, noRequirements p = false := by
        intro p hp
        by_contra hcon
        have h1 : noRequirements p = true := by
          revert hcon; cases noRequirements p <;> simp
        have h2 : p.requirements = [] := by
          simpa [noRequirements] using h1
        have h3 := hnp (p.key, p) (hprops p hp).2 h2
        exact (hprops p hp).1 h3
      have hextnil : ext.filter noRequirements = [] :=
        List.filter_eq_nil_iff.2 (by intro a ha; simp [hextnr a ha])
      have hfilter_t : (onePass items s).ordered.filter noRequirements =
          s.ordered.filter noRequirements := by
        rw [he1', List.filter_append, hextnil, List.append_nil]
      have hnp_t : ∀ kv ∈ items, kv.2.requirements = [] →
          kv.1 ∈ (onePass items s).placedKeys := by
        intro kv h hreq
        rw [he2']
        exact List.mem_append_left _ (hnp kv h hreq)
      by_cases happ : (onePass items s).appended = true
      · rw [if_pos happ] at heq
        rw [ih (onePass items s) l hnp_t heq, hfilter_t]
      · rw [if_neg happ] at heq
        by_cases hlen : (onePass items s).ordered.length ≠ items.length
        · rw [if_pos hlen] at heq; simp at heq
        · rw [if_neg hlen] at heq
          injection heq with heq2
          rw [← heq2, hfilter_t]

theorem dictInsert_wf {d : List (Key × Plugin)} {k : Key} {v : Plugin}
    (hc : ∀ kv ∈ d, kv.1 = kv.2.key) (hnd : (d.map (fun kv => kv.1)).Nodup)
    (hkv : k = v.key) :
    (∀ kv ∈ dictInsert d k v, kv.1 = kv.2.key) ∧
      ((dictInsert d k v).map (fun kv => kv.1)).Nodup := by
  unfold dictInsert
  split_ifs with h
  · constructor
    · intro kv hkv'
      rcases List.mem_map.1 hkv' with ⟨kv0, hkv0, rfl⟩
      by_cases hk : kv0.1 = k
      · simp [hk, hkv]
      · simpa [hk] using hc kv0 hkv0
    · have hmap : (d.map (fun kv => if kv.1 = k then (k, v) else kv)).map
          (fun kv => kv.1) = d.map (fun kv => kv.1) := by
        rw [List.map_map]
        apply List.map_congr_left
        intro kv0 _
        by_cases hk : kv0.1 = k <;> simp [hk]
      rw [hmap]
      exact hnd
  · constructor
    · intro kv hkv'
      rcases List.mem_append.1 hkv' with h1 | h1
      · exact hc kv h1
      · rw [List.mem_singleton.1 h1]; exact hkv
    · rw [List.map_append]
      have hknot : k ∉ d.map (fun kv => kv.1) := by
        intro hcon
        apply h
        rw [List.any_eq_true]
        rcases List.mem_map.1 hcon with ⟨kv0, hkv0, hk0⟩
        exact ⟨kv0, hkv0, by simp [hk0]⟩
      simp [List.nodup_append, hnd, hknot]

theorem addAll_wf (ps : List Plugin) :
    GraphWF (PluginGraph.empty.add_all ps) := by
  suffices h : ∀ g : PluginGraph, GraphWF g → GraphWF (g.add_all ps) from
    h PluginGraph.empty ⟨by simp [PluginGraph.empty], by simp [PluginGraph.empty]⟩
  induction ps with
  | nil => intro g hg; exact hg
  | cons p rest ih =>
      intro g hg
      have hstep : PluginGraph.add_all g (p :: rest) =
          PluginGraph.add_all (g.add p) rest := rfl
      rw [hstep]
      have := dictInsert_wf hg.1 hg.2 (rfl : p.key = p.key)
      exact ih (g.add p) ⟨this.1, this.2⟩

theorem check_missing_ok {g : PluginGraph}
    (hpres : ∀ p ∈ g.values, ∀ r ∈ p.requirements, r.key ∈ g.keys) :
    g.check_for_non_existing_requirements = .ok () := by
  unfold PluginGraph.check_for_non_existing_requirements
  have hnone : g.reqPairs.find? (fun pr => decide (pr.2.key ∉ g.keys)) =
      none := by
    rw [List.find?_eq_none]
    intro pr hpr
    rcases List.mem_flatMap.1 hpr with ⟨p, hp, hpr2⟩
    rcases List.mem_map.1 hpr2 with ⟨r, hr, rfl⟩
    simp only [decide_eq_true_eq, Decidable.not_not]
    exact hpres p hp r hr
  rw [hnone]

theorem hpres_items {g : PluginGraph}
    (hpres : ∀ p ∈ g.values, ∀ r ∈ p.requirements, r.key ∈ g.keys) :
    ∀ kv ∈ g.plugins, ∀ r ∈ kv.2.requirements,
      r.key ∈ g.plugins.map (fun kv => kv.1) := by
  intro kv hkv r hr
  exact hpres kv.2 (List.mem_map.2 ⟨kv, hkv, rfl⟩) r hr

theorem ordered_ok_sorted {g : PluginGraph} {l : List Plugin}
    (h : g.get_ordered_plugins = .ok l) : g.get_sorted_plugins = .ok l := by
  unfold PluginGraph.get_ordered_plugins at h
  match h1 : g.check_required_plugin_types with
  | .error e => rw [h1] at h; simp [Bind.bind, Except.bind] at h
  | .ok u =>
      match h2 : g.check_for_non_existing_requirements with
      | .error e => rw [h1, h2] at h; simp [Bind.bind, Except.bind] at h
      | .ok u2 => rw [h1, h2] at h; simpa [Bind.bind, Except.bind] using h

/-- C1: for every finite set of records whose requirements are well-typed,
all resolve to present keys, and whose requirement graph is acyclic,
`get_ordered_plugins` succeeds with a permutation of the graph's records
(each exactly once), in which every requirement's record occurs strictly
before the requiring record; in particular on zero records it returns the
empty sequence without error. -/
theorem claim_C1 (ps : List Plugin)
    (hwt : ∀ p ∈ (PluginGraph.empty.add_all ps).values, p.reqResult.isOk = true)
    (hpres : ∀ p ∈ (PluginGraph.empty.add_all ps).values,
      ∀ r ∈ p.requirements, r.key ∈ (PluginGraph.empty.add_all ps).keys)
    (hacyc : ∀ k, ¬ Relation.TransGen
      (reqEdgeL (PluginGraph.empty.add_all ps).plugins) k k) :
    (∃ l, (PluginGraph.empty.add_all ps).get_ordered_plugins = .ok l ∧
      l.Perm (PluginGraph.empty.add_all ps).values ∧
      (∀ (pre : List Plugin) (q : Plugin) (post : List Plugin),
        l = pre ++ q :: post → ∀ r ∈ q.requirements,
          r.key ∈ pre.map Plugin.key)) ∧
    (PluginGraph.empty.add_all ([] : List Plugin)).get_ordered_plugins =
      .ok [] := by
  have hwf := addAll_wf ps
  set g := PluginGraph.empty.add_all ps with hg
  have hcons := hwf.1
  have hnd := hwf.2
  have hpres' := hpres_items hpres
  have h1 : g.check_required_plugin_types = .ok () := checkTypesList_ok _ hwt
  have h2 : g.check_for_non_existing_requirements = .ok () :=
    check_missing_ok hpres
  have hinv0 : SortInv g.plugins ⟨[], [], false⟩ :=
    ⟨by simp, by simp, by simp, SortedOut.nil⟩
  obtain ⟨l, hl⟩ := sortLoop_success hcons hnd hpres' hacyc
    (g.plugins.length + 1) ⟨[], [], false⟩ hinv0 (by simp)
  obtain ⟨hsorted, hmem, hndl, hlen⟩ := sortLoop_ok_char hcons _ _ _ hinv0 hl
  constructor
  · refine ⟨l, ?_, ?_, ?_⟩
    · rw [ordered_eq_sorted g h1 h2]
      exact hl
    · have hLsub : l.map (fun p => (p.key, p)) ⊆ g.plugins := by
        intro x hx
        rcases List.mem_map.1 hx with ⟨p, hp, rfl⟩
        exact hmem p hp
      have hLnd : (l.map (fun p => (p.key, p))).Nodup := by
        apply List.Nodup.of_map (fun kv : Key × Plugin => kv.1)
        rw [List.map_map]
        simpa [Function.comp, Plugin.key] using hndl
      have hperm : (l.map (fun p => (p.key, p))).Perm g.plugins := by
        apply (List.subperm_of_subset hLnd hLsub).perm_of_length_le
        simp [hlen]
      have hperm2 := hperm.map (fun kv : Key × Plugin => kv.2)
      rw [List.map_map] at hperm2
      have hid : (fun kv : Key × Plugin => kv.2) ∘
          (fun p : Plugin => (p.key, p)) = id := rfl
      rw [hid, List.map_id] at hperm2
      exact hperm2
    · intro pre q post heq r hr
      exact sortedOut_prec hsorted pre q post heq r hr
  · decide

/-- C1 witness: two records, the first requiring the second, certified
acyclic by an explicit rank. -/
theorem claim_C1_witness :
    (∀ p ∈ (PluginGraph.empty.add_all [sampleB, sampleA]).values,
      p.reqResult.isOk = true) ∧
    (∃ l, (PluginGraph.empty.add_all [sampleB, sampleA]).get_ordered_plugins =
        .ok l ∧
      l.Perm (PluginGraph.empty.add_all [sampleB, sampleA]).values) := by
  refine ⟨by decide, ?_⟩
  obtain ⟨⟨l, hl1, hl2, _⟩, _⟩ := claim_C1 [sampleB, sampleA] (by decide)
    (by decide)
    (acyclic_of_rank (fun k => if k = ("m", "a") then 0 else 1) (by decide))
  exact ⟨l, hl1, hl2⟩

/-- C4: with well-typed requirements all resolving to present keys, a cyclic
requirement graph makes `get_ordered_plugins` fail with a cycle
`PluginError` whose payload is the list of local names of the records still
unplaced at the stuck pass; in particular every record lying on a cycle has
its local name in the payload, and the payload names only the graph's
records. -/
theorem claim_C4 (ps : List Plugin)
    (hwt : ∀ p ∈ (PluginGraph.empty.add_all ps).values, p.reqResult.isOk = true)
    (hpres : ∀ p ∈ (PluginGraph.empty.add_all ps).values,
      ∀ r ∈ p.requirements, r.key ∈ (PluginGraph.empty.add_all ps).keys)
    (hcyc : ∃ c, Relation.TransGen
      (reqEdgeL (PluginGraph.empty.add_all ps).plugins) c c) :
    ∃ names, (PluginGraph.empty.add_all ps).get_ordered_plugins =
        .error (.cyclic names) ∧
      (∃ placed, names =
        (unplacedPlugins (PluginGraph.empty.add_all ps).plugins placed).map
          (fun p => p.name)) ∧
      (∀ (k : Key) (p : Plugin), Relation.TransGen
          (reqEdgeL (PluginGraph.empty.add_all ps).plugins) k k →
        (k, p) ∈ (PluginGraph.empty.add_all ps).plugins → p.name ∈ names) ∧
      names ⊆ (PluginGraph.empty.add_all ps).values.map (fun p => p.name) := by
  have hwf := addAll_wf ps
  set g := PluginGraph.empty.add_all ps with hg
  have hcons := hwf.1
  have hnd := hwf.2
  have h1 : g.check_required_plugin_types = .ok () := checkTypesList_ok _ hwt
  have h2 : g.check_for_non_existing_requirements = .ok () :=
    check_missing_ok hpres
  have hinv0 : SortInv g.plugins ⟨[], [], false⟩ :=
    ⟨by simp, by simp, by simp, SortedOut.nil⟩
  obtain ⟨c0, hc0⟩ := hcyc
  match hres : g.get_sorted_plugins with
  | .ok l =>
      exfalso
      obtain ⟨hsorted, hmem, hndl, hlen⟩ :=
        sortLoop_ok_char hcons _ _ _ hinv0 hres
      have hc0key : c0 ∈ g.plugins.map (fun kv => kv.1) := by
        obtain ⟨c, hedge, _⟩ := transGen_rotate hc0
        obtain ⟨kv, hkv, hkv1, _⟩ := hedge
        exact List.mem_map.2 ⟨kv, hkv, hkv1⟩
      have hkeysub : l.map Plugin.key ⊆ g.plugins.map (fun kv => kv.1) := by
        intro k hk
        rcases List.mem_map.1 hk with ⟨p, hp, rfl⟩
        exact List.mem_map.2 ⟨(p.key, p), hmem p hp, rfl⟩
      have hkperm : (l.map Plugin.key).Perm
          (g.plugins.map (fun kv => kv.1)) := by
        apply (List.subperm_of_subset hndl hkeysub).perm_of_length_le
        simp [hlen]
      have hc0l : c0 ∈ l.map Plugin.key := hkperm.mem_iff.2 hc0key
      exact cycle_not_placed hnd hsorted hmem c0 hc0 hc0l
  | .error e =>
      obtain ⟨s', hinv', he⟩ := sortLoop_error_char hcons _ _ _ hinv0 hres
      refine ⟨(unplacedPlugins g.plugins s'.placedKeys).map (fun p => p.name),
        ?_, ⟨s'.placedKeys, rfl⟩, ?_, ?_⟩
      · rw [ordered_eq_sorted g h1 h2, hres, he]
        rfl
      · intro k p hkcyc hkp
        have hknp : k ∉ s'.placedKeys := by
          rw [hinv'.placed_eq]
          exact cycle_not_placed hnd hinv'.sorted hinv'.mem_items k hkcyc
        apply List.mem_map.2
        refine ⟨p, ?_, rfl⟩
        unfold unplacedPlugins
        apply List.mem_map.2
        refine ⟨(k, p), ?_, rfl⟩
        rw [List.mem_filter]
        exact ⟨hkp, by simpa using hknp⟩
      · intro x hx
        rcases List.mem_map.1 hx with ⟨p, hp, rfl⟩
        apply List.mem_map.2
        refine ⟨p, ?_, rfl⟩
        unfold unplacedPlugins at hp
        rcases List.mem_map.1 hp with ⟨kv, hkv, rfl⟩
        exact List.mem_map.2 ⟨kv, List.mem_of_mem_filter hkv, rfl⟩

/-- C4 witness: the two-cycle `a requires b`, `b requires a` plus a record
`c` blocked by the cycle; the payload contains both cycle members' local
names. -/
theorem claim_C4_witness :
    ∃ names, (PluginGraph.empty.add_all
        [cycA, cycB, mkPlugin "m" "c" [⟨"m", "a"⟩]]).get_ordered_plugins =
      .error (.cyclic names) ∧ cycA.name ∈ names ∧ cycB.name ∈ names := by
  have eab : reqEdgeL (PluginGraph.empty.add_all
      [cycA, cycB, mkPlugin "m" "c" [⟨"m", "a"⟩]]).plugins
      ("m", "a") ("m", "b") := by decide
  have eba : reqEdgeL (PluginGraph.empty.add_all
      [cycA, cycB, mkPlugin "m" "c" [⟨"m", "a"⟩]]).plugins
      ("m", "b") ("m", "a") := by decide
  have cAA := Relation.TransGen.head eab (Relation.TransGen.single eba)
  have cBB := Relation.TransGen.head eba (Relation.TransGen.single eab)
  obtain ⟨names, h1, _, h3, _⟩ := claim_C4
    [cycA, cycB, mkPlugin "m" "c" [⟨"m", "a"⟩]] (by decide) (by decide)
    ⟨("m", "a"), cAA⟩
  exact ⟨names, h1, h3 ("m", "a") cycA cAA (by decide),
    h3 ("m", "b") cycB cBB (by decide)⟩

/-- C10: ordering is a deterministic function of the graph (calling it twice
on an unmodified graph yields the identical sequence), and ties are broken by
insertion order: the records with no requirements appear in the output in
exactly their mapping (insertion) order. -/
theorem claim_C10 (ps : List Plugin) (l : List Plugin)
    (hok : (PluginGraph.empty.add_all ps).get_ordered_plugins = .ok l) :
    (PluginGraph.empty.add_all ps).get_ordered_plugins = .ok l ∧
    l.filter noRequirements =
      (PluginGraph.empty.add_all ps).values.filter noRequirements := by
  have hwf := addAll_wf ps
  set g := PluginGraph.empty.add_all ps with hg
  have hcons := hwf.1
  have hnd := hwf.2
  refine ⟨hok, ?_⟩
  have hsorted := ordered_ok_sorted hok
  have hstep : sortLoop g.plugins (g.plugins.length + 1) ⟨[], [], false⟩ =
      .ok l := hsorted
  rw [sortLoop_step] at hstep
  obtain ⟨ext, he1, he2, hsub, hprops⟩ :=
    runPass_ext g.plugins ⟨[], [], false⟩ hcons
  have he1' : (onePass g.plugins ⟨[], [], false⟩).ordered = ext := by
    simpa using he1
  have he2' : (onePass g.plugins ⟨[], [], false⟩).placedKeys =
      ext.map Plugin.key := by
    simpa using he2
  have hext_noreq_placed : ∀ kv ∈ g.plugins, kv.2.requirements = [] →
      kv.1 ∈ (onePass g.plugins ⟨[], [], false⟩).placedKeys :=
    fun kv h hreq => runPass_place_noreq g.plugins ⟨[], [], false⟩ kv h hreq
  have hvnd : g.values.Nodup := by
    apply List.Nodup.of_map Plugin.key
    have hmapeq : g.values.map Plugin.key = g.plugins.map (fun kv => kv.1) := by
      show (g.plugins.map (fun kv => kv.2)).map Plugin.key = _
      rw [List.map_map]
      apply List.map_congr_left
      intro kv hkv
      exact (hcons kv hkv).symm
    rw [hmapeq]
    exact hnd
  have hextnd : ext.Nodup := List.Nodup.sublist hsub hvnd
  have hfe : ext.filter noRequirements = g.values.filter noRequirements := by
    have hsubf := List.Sublist.filter noRequirements hsub
    have hsup : g.values.filter noRequirements ⊆ ext.filter noRequirements := by
      intro p hp
      have hpv : p ∈ g.values := List.mem_of_mem_filter hp
      have hpnr : noRequirements p = true := List.of_mem_filter hp
      rcases List.mem_map.1 hpv with ⟨kv, hkv, rfl⟩
      have hkey : kv.1 ∈ (onePass g.plugins ⟨[], [], false⟩).placedKeys :=
        hext_noreq_placed kv hkv (by simpa [noRequirements] using hpnr)
      rw [he2'] at hkey
      rcases List.mem_map.1 hkey with ⟨q, hq, hqk⟩
      have hqitems : (q.key, q) ∈ g.plugins := by
        have := (hprops q hq).2
        exact this
      rw [hqk] at hqitems
      have hq2 : q = kv.2 := keyUnique hnd hqitems (by
        have hkveta : (kv.1, kv.2) = kv := rfl
        rw [hkveta]
        exact hkv)
      rw [List.mem_filter]
      exact ⟨by rw [← hq2]; exact hq, hpnr⟩
    have hnd1 : (ext.filter noRequirements).Nodup := hextnd.filter _
    have hnd2 : (g.values.filter noRequirements).Nodup := hvnd.filter _
    have hlen1 := (List.subperm_of_subset hnd2 hsup).length_le
    have hlen2 : (ext.filter noRequirements).length ≤
        (g.values.filter noRequirements).length := hsubf.length_le
    exact hsubf.eq_of_length (Nat.le_antisymm hlen2 hlen1)
  by_cases happ : (onePass g.plugins ⟨[], [], false⟩).appended = true
  · rw [if_pos happ] at hstep
    have hres := sortLoop_noreq hcons g.plugins.length
      (onePass g.plugins ⟨[], [], false⟩) l hext_noreq_placed hstep
    rw [hres, he1', hfe]
  · rw [if_neg happ] at hstep
    by_cases hlen : (onePass g.plugins ⟨[], [], false⟩).ordered.length ≠
        g.plugins.length
    · rw [if_pos hlen] at hstep
      simp at hstep
    · rw [if_neg hlen] at hstep
      injection hstep with hstep2
      rw [← hstep2, he1', hfe]

/-- C10 witness: a graph whose dict order is `b, a, c` (with `b` requiring
`a`); the no-requirement records `a, c` appear in the output in insertion
order. -/
theorem claim_C10_witness :
    (PluginGraph.empty.add_all
        [sampleB, sampleA, mkPlugin "m" "c" []]).get_ordered_plugins =
      .ok [sampleA, mkPlugin "m" "c" [], sampleB] ∧
    ([sampleA, mkPlugin "m" "c" [], sampleB].filter noRequirements =
      (PluginGraph.empty.add_all
        [sampleB, sampleA, mkPlugin "m" "c" []]).values.filter
        noRequirements) :=
  ⟨by decide,
    (claim_C10 [sampleB, sampleA, mkPlugin "m" "c" []]
      [sampleA, mkPlugin "m" "c" [], sampleB] (by decide)).2⟩

end UptimePlugin
